import Mathlib

/-!
Shallow embedding of `src/lib/position_calculator.ts` (position session
calculator for BitMEX-style inverse contracts and Binance/OKX-style hedge
mode), together with theorems checking the specification's claims.

Modelling conventions:
* JS numbers are modelled as `ℚ` (the code performs only field arithmetic,
  `Math.abs`, `Math.min`, `Math.max` on them).
* Timestamps are ISO strings in the code, compared via `new Date(...).getTime()`
  and (in one place) via string comparison; for ISO timestamps both orders
  agree, so timestamps are modelled as `ℤ` epoch milliseconds.
* `Array.prototype.sort` is stable (ES2019); it is modelled by
  `List.insertionSort` with a non-strict comparison, which is stable.
* JS `Map` iteration order is key-insertion order; it is modelled by
  `groupByKey`, which keeps first-occurrence key order and accumulates each
  group in encounter order.
* The free-text regex parsers (`parsePositionSideFromText`,
  `parseRealizedPnlFromText`) are modelled by explicit scanners over the
  character list with the same leftmost-match semantics.
-/

namespace PositionCalculator

/-! ### JS string helpers -/

/-- ASCII lower-casing of one character, as `String.prototype.toLowerCase`
acts on the ASCII side strings used here. -/
def jsCharLower (c : Char) : Char :=
  if c.isUpper then Char.ofNat (c.toNat + 32) else c

/-- ASCII upper-casing of one character. -/
def jsCharUpper (c : Char) : Char :=
  if c.isLower then Char.ofNat (c.toNat - 32) else c

def jsToLower (s : String) : String := ⟨s.data.map jsCharLower⟩

/-- JS `String.prototype.replace` with a plain-string pattern replaces only the
first occurrence. -/
def listReplaceFirst (pat rep : List Char) : List Char → List Char
  | [] => []
  | c :: cs =>
    if pat.isPrefixOf (c :: cs) then rep ++ (c :: cs).drop pat.length
    else c :: listReplaceFirst pat rep cs

def jsReplaceFirst (s pat rep : String) : String :=
  ⟨listReplaceFirst pat.data rep.data s.data⟩

def listContainsSub (pat : List Char) : List Char → Bool
  | [] => pat.isEmpty
  | c :: cs => pat.isPrefixOf (c :: cs) || listContainsSub pat cs

/-- JS `String.prototype.includes`. -/
def jsIncludes (s pat : String) : Bool := listContainsSub pat.data s.data

def splitOnColonAux : List Char → List Char → List (List Char)
  | [], acc => [acc.reverse]
  | c :: cs, acc =>
    if c = ':' then acc.reverse :: splitOnColonAux cs []
    else splitOnColonAux cs (c :: acc)

/-- Model of `key.split(':')`. -/
def jsSplitColon (s : String) : List String :=
  (splitOnColonAux s.data []).map (fun l => ⟨l⟩)

/-- Model of `formatSymbol` for the default `'bitmex'` exchange, from
`exchange_types.ts` (the `types.ts` re-export itself is not part of the
sources; this mirrors the in-repo implementation used for BitMEX display
symbols): a fixed map lookup, else replace the first `"XBT"` by `"BTC"`. -/
def formatSymbol (symbol : String) : String :=
  if symbol = "XBTUSD" then "BTCUSD"
  else if symbol = "XBTUSDT" then "BTCUSDT"
  else if symbol = "ETHUSD" then "ETHUSD"
  else if symbol = "ETHUSDT" then "ETHUSDT"
  else jsReplaceFirst symbol "XBT" "BTC"

/-- JS `Math.abs`. -/
def jsAbs (q : ℚ) : ℚ := if q < 0 then -q else q

/-- JS `Math.max`. -/
def jsMax (a b : ℚ) : ℚ := if a ≤ b then b else a

/-- JS `Math.min`. -/
def jsMin (a b : ℚ) : ℚ := if a ≤ b then a else b

/-! ### The annotation-text parsers -/

/-- A character matched by the regex class `[:\s]`. -/
def isColonOrSpace (c : Char) : Bool :=
  c = ':' || c = ' ' || c = '\t' || c = '\n' || c = '\r' || c = '\x0b' || c = '\x0c'

/-- A character matched by `\w`. -/
def isWordChar (c : Char) : Bool :=
  (decide ('a' ≤ c) && decide (c ≤ 'z')) || (decide ('A' ≤ c) && decide (c ≤ 'Z')) ||
    c.isDigit || c = '_'

/-- Case-insensitive keyword match at the head of `l` (`kw` is lowercase). -/
def lowerPrefixMatches (kw : List Char) (l : List Char) : Bool :=
  (l.take kw.length).map jsCharLower = kw

/-- After the keyword, the regexes skip `[:\s]*` greedily and then capture
`\w+`; an empty capture fails the match at this start position. -/
def extractTagWord (l : List Char) : Option (List Char) :=
  let w := (l.dropWhile isColonOrSpace).takeWhile isWordChar
  if w.isEmpty then none else some w

/-- Leftmost match of `/(?:positionSide|posSide)[:\s]*(\w+)/i`, returning the
captured word. -/
def scanPositionSide : List Char → Option (List Char)
  | [] => none
  | c :: cs =>
    match (if lowerPrefixMatches "positionside".data (c :: cs)
           then extractTagWord ((c :: cs).drop 12) else none) with
    | some w => some w
    | none =>
      match (if lowerPrefixMatches "posside".data (c :: cs)
             then extractTagWord ((c :: cs).drop 7) else none) with
      | some w => some w
      | none => scanPositionSide cs

/-- Model of `parsePositionSideFromText` from the calculator: parse a `LONG`/`SHORT`
position-side tag out of the free-text annotation, defaulting to `BOTH`. -/
def parsePositionSideFromText (text : String) : String :=
  match scanPositionSide text.data with
  | none => "BOTH"
  | some w =>
    let u := w.map jsCharUpper
    if u = "LONG".data then "LONG"
    else if u = "SHORT".data then "SHORT"
    else "BOTH"

def isDigitOrDot (c : Char) : Bool := c.isDigit || c = '.'

/-- Capture of `-?[\d.]+`: an optional minus sign followed by at least one
digit-or-dot character (greedy). -/
def captureJsNumber (l : List Char) : Option (Bool × List Char) :=
  match l with
  | '-' :: rest =>
    let d := rest.takeWhile isDigitOrDot
    if d.isEmpty then none else some (true, d)
  | _ =>
    let d := l.takeWhile isDigitOrDot
    if d.isEmpty then none else some (false, d)

def digitsToNat (l : List Char) : ℕ :=
  l.foldl (fun n c => 10 * n + (c.toNat - 48)) 0

/-- JS `parseFloat` applied to the captured `-?[\d.]+` string: integer digits,
then at most one dot and fractional digits, anything after a second dot is
ignored; no digits at all is `NaN`, which the calculator turns into `0`. -/
def jsParseFloatCaptured (neg : Bool) (ds : List Char) : ℚ :=
  let ipart := ds.takeWhile Char.isDigit
  let rest := ds.drop ipart.length
  let fpart := match rest with
    | '.' :: r => r.takeWhile Char.isDigit
    | _ => []
  if ipart.isEmpty ∧ fpart.isEmpty then 0
  else
    let m : ℚ := (digitsToNat ipart : ℚ) + (digitsToNat fpart : ℚ) / ((10 ^ fpart.length : ℕ) : ℚ)
    if neg then -m else m

/-- Leftmost match of `/realizedPnl[:\s]*(-?[\d.]+)/i`. -/
def scanRealizedPnl : List Char → Option (Bool × List Char)
  | [] => none
  | c :: cs =>
    match (if lowerPrefixMatches "realizedpnl".data (c :: cs)
           then captureJsNumber (((c :: cs).drop 11).dropWhile isColonOrSpace)
           else none) with
    | some r => some r
    | none => scanRealizedPnl cs

/-- Model of `parseRealizedPnlFromText` from the calculator. -/
def parseRealizedPnlFromText (text : String) : ℚ :=
  match scanRealizedPnl text.data with
  | none => 0
  | some (neg, ds) => jsParseFloatCaptured neg ds

/-! ### Data model -/

/-- An input execution record (fields of the `Execution` interface that the
calculator reads). `side` is the raw string, so that the code's JS truthiness
test `e.side &&` is the test `side ≠ ""`. -/
structure Execution where
  execID : String
  orderID : String
  symbol : String
  side : String
  execType : String
  lastQty : ℚ
  lastPx : ℚ
  execCost : ℚ
  execComm : ℚ
  timestamp : ℤ
  text : String
deriving DecidableEq, Inhabited, Repr

/-- A per-session trade record, as built by both calculators (`fee` is
flattened into `feeCost`/`feeCurrency`). -/
structure Trade where
  id : String
  datetime : ℤ
  symbol : String
  displaySymbol : String
  side : String
  price : ℚ
  amount : ℚ
  cost : ℚ
  feeCost : ℚ
  feeCurrency : String
  orderID : String
  execType : String
deriving DecidableEq, Inhabited, Repr

/-- The output `PositionSession` record. -/
structure PositionSession where
  id : String
  symbol : String
  displaySymbol : String
  side : String
  openTime : ℤ
  closeTime : Option ℤ
  durationMs : ℤ
  maxSize : ℚ
  totalBought : ℚ
  totalSold : ℚ
  avgEntryPrice : ℚ
  avgExitPrice : ℚ
  realizedPnl : ℚ
  totalFees : ℚ
  netPnl : ℚ
  tradeCount : ℕ
  trades : List Trade
  status : String
deriving DecidableEq, Inhabited, Repr

/-! ### Grouping (JS `Map` with insertion-order iteration) -/

def insertGrouped {α : Type} (k : String) (a : α) :
    List (String × List α) → List (String × List α)
  | [] => [(k, [a])]
  | g :: rest =>
    if g.1 = k then (g.1, g.2 ++ [a]) :: rest
    else g :: insertGrouped k a rest

/-- Group a list by a string key: groups appear in order of first occurrence
of their key, each group keeps encounter order, exactly like filling a JS
`Map` of arrays and iterating it. -/
def groupByKey {α : Type} (key : α → String) (l : List α) :
    List (String × List α) :=
  l.foldl (fun acc a => insertGrouped (key a) a acc) []

/-! ### Sort relations (stable `Array.prototype.sort` comparators) -/

abbrev execTsLe (a b : Execution) : Prop := a.timestamp ≤ b.timestamp

/-- Sort key of the final session sort: close time if closed, else open
time (`new Date(a.closeTime || a.openTime)`). -/
def sessionSortKey (s : PositionSession) : ℤ := s.closeTime.getD s.openTime

/-- Session `a` is at least as recent as `b`: the final sort puts sessions in this
(descending) order. -/
abbrev sessionMoreRecent (a b : PositionSession) : Prop :=
  sessionSortKey b ≤ sessionSortKey a

instance : IsTotal PositionSession sessionMoreRecent :=
  ⟨fun a b => le_total (sessionSortKey b) (sessionSortKey a)⟩

instance : IsTrans PositionSession sessionMoreRecent :=
  ⟨fun _ _ _ h1 h2 => le_trans h2 h1⟩

/-! ### The shared input filter -/

/-- The filter both calculators apply first:
`e.execType === 'Trade' && e.side && e.lastQty > 0`. -/
def isTradeExecution (e : Execution) : Bool :=
  decide (e.execType = "Trade" ∧ e.side ≠ "" ∧ 0 < e.lastQty)

/-! ### BitMEX (inverse-contract) calculator -/

/-- Mutable per-symbol state of `calculateBitMEXPositionSessions`, plus the
threaded output accumulator (`allSessions`, `globalSessionId`). -/
structure BitmexSymbolState where
  runningPosition : ℚ := 0
  sessionExecutions : List Execution := []
  sessionStartTime : Option ℤ := none
  totalBought : ℚ := 0
  totalSold : ℚ := 0
  totalBuyCost : ℚ := 0
  totalSellCost : ℚ := 0
  totalCommission : ℚ := 0
  maxPosition : ℚ := 0
  allSessions : List PositionSession := []
  globalSessionId : ℕ := 0
deriving DecidableEq, Inhabited, Repr

def bitmexToTrade (e : Execution) : Trade :=
  { id := e.execID
    datetime := e.timestamp
    symbol := e.symbol
    displaySymbol := formatSymbol e.symbol
    side := jsToLower e.side
    price := e.lastPx
    amount := e.lastQty
    cost := jsAbs e.execCost
    feeCost := e.execComm
    feeCurrency := "XBT"
    orderID := e.orderID
    execType := "Trade" }

/-- The session record built by the BitMEX `closeSession` closure. -/
def bitmexMkSession (symbol : String) (st : BitmexSymbolState)
    (endTime : ℤ) (endPosition : ℚ) : PositionSession :=
  let side := if st.totalSold < st.totalBought then "long" else "short"
  let avgEntryPrice :=
    if side = "long" then (if 0 < st.totalBought then st.totalBuyCost / st.totalBought else 0)
    else (if 0 < st.totalSold then st.totalSellCost / st.totalSold else 0)
  let avgExitPrice :=
    if side = "long" then (if 0 < st.totalSold then st.totalSellCost / st.totalSold else 0)
    else (if 0 < st.totalBought then st.totalBuyCost / st.totalBought else 0)
  let closedQty := jsMin st.totalBought st.totalSold
  let realizedPnl :=
    if 0 < closedQty ∧ 0 < avgEntryPrice ∧ 0 < avgExitPrice then
      (if side = "long" then closedQty * (1 / avgEntryPrice - 1 / avgExitPrice)
       else closedQty * (1 / avgExitPrice - 1 / avgEntryPrice))
    else 0
  let totalFees := jsAbs st.totalCommission / 100000000
  let trades := st.sessionExecutions.map bitmexToTrade
  { id := symbol ++ "-" ++ toString st.globalSessionId
    symbol := symbol
    displaySymbol := formatSymbol symbol
    side := side
    openTime := st.sessionStartTime.getD 0
    closeTime := if endPosition = 0 then some endTime else none
    durationMs := endTime - st.sessionStartTime.getD 0
    maxSize := st.maxPosition
    totalBought := st.totalBought
    totalSold := st.totalSold
    avgEntryPrice := avgEntryPrice
    avgExitPrice := if endPosition = 0 then avgExitPrice else 0
    realizedPnl := if endPosition = 0 then realizedPnl else 0
    totalFees := totalFees
    netPnl := if endPosition = 0 then realizedPnl - totalFees else -totalFees
    tradeCount := trades.length
    trades := trades
    status := if endPosition = 0 then "closed" else "open" }

/-- The closure `closeSession(endTime, endPosition)`: appends a session unless no
executions are pending or no start time was recorded. -/
def bitmexCloseSession (symbol : String) (st : BitmexSymbolState)
    (endTime : ℤ) (endPosition : ℚ) : BitmexSymbolState :=
  if st.sessionExecutions = [] ∨ st.sessionStartTime = none then st
  else
    { st with
      allSessions := st.allSessions ++ [bitmexMkSession symbol st endTime endPosition]
      globalSessionId := st.globalSessionId + 1 }

/-- The closure `resetSession()`. -/
def bitmexResetSession (st : BitmexSymbolState) : BitmexSymbolState :=
  { st with
    sessionExecutions := []
    sessionStartTime := none
    totalBought := 0
    totalSold := 0
    totalBuyCost := 0
    totalSellCost := 0
    totalCommission := 0
    maxPosition := 0 }

/-- Lines 162-179: update the running position and the accumulators for one
execution and push it on the pending list. -/
def bitmexApplyExec (st : BitmexSymbolState) (e : Execution) : BitmexSymbolState :=
  let st1 : BitmexSymbolState :=
    if e.side = "Buy" then
      { st with
        runningPosition := st.runningPosition + e.lastQty
        totalBought := st.totalBought + e.lastQty
        totalBuyCost := st.totalBuyCost + e.lastQty * e.lastPx }
    else
      { st with
        runningPosition := st.runningPosition - e.lastQty
        totalSold := st.totalSold + e.lastQty
        totalSellCost := st.totalSellCost + e.lastQty * e.lastPx }
  { st1 with
    totalCommission := st1.totalCommission + e.execComm
    sessionExecutions := st1.sessionExecutions ++ [e]
    maxPosition := jsMax st1.maxPosition (jsAbs st1.runningPosition) }

/-- The position-flip branch (lines 192-223): subtract the overflow from the
closing session's totals, close it, then seed a new session with the
overflow quantity and this execution as its sole trade. -/
def bitmexFlip (symbol : String) (e : Execution) (st : BitmexSymbolState) :
    BitmexSymbolState :=
  let overflowQty := jsAbs st.runningPosition
  let st1 : BitmexSymbolState :=
    if e.side = "Buy" then
      { st with
        totalBought := st.totalBought - overflowQty
        totalBuyCost := st.totalBuyCost - overflowQty * e.lastPx }
    else
      { st with
        totalSold := st.totalSold - overflowQty
        totalSellCost := st.totalSellCost - overflowQty * e.lastPx }
  let st2 := bitmexResetSession (bitmexCloseSession symbol st1 e.timestamp 0)
  { st2 with
    sessionStartTime := some e.timestamp
    sessionExecutions := [e]
    totalBought := if e.side = "Buy" then overflowQty else 0
    totalBuyCost := if e.side = "Buy" then overflowQty * e.lastPx else 0
    totalSold := if e.side = "Buy" then 0 else overflowQty
    totalSellCost := if e.side = "Buy" then 0 else overflowQty * e.lastPx
    totalCommission := e.execComm
    maxPosition := overflowQty }

/-- Line 182-184: record the session start time when the position leaves
exactly zero (`positionBefore` is the running position before this
execution was applied). -/
def bitmexMaybeStart (e : Execution) (positionBefore : ℚ) (st : BitmexSymbolState) :
    BitmexSymbolState :=
  if positionBefore = 0 ∧ st.runningPosition ≠ 0 then
    { st with sessionStartTime := some e.timestamp }
  else st

/-- Lines 187-190: close the session when the position returns to exactly
zero. -/
def bitmexMaybeFlatClose (symbol : String) (e : Execution) (positionBefore : ℚ)
    (st : BitmexSymbolState) : BitmexSymbolState :=
  if positionBefore ≠ 0 ∧ st.runningPosition = 0 then
    bitmexResetSession (bitmexCloseSession symbol st e.timestamp 0)
  else st

/-- Lines 192-223: handle a sign flip of the running position. -/
def bitmexMaybeFlip (symbol : String) (e : Execution) (positionBefore : ℚ)
    (st : BitmexSymbolState) : BitmexSymbolState :=
  if (0 < positionBefore ∧ st.runningPosition < 0) ∨
     (positionBefore < 0 ∧ 0 < st.runningPosition) then
    bitmexFlip symbol e st
  else st

/-- One iteration of the BitMEX per-execution loop. -/
def bitmexStep (symbol : String) (st : BitmexSymbolState) (e : Execution) :
    BitmexSymbolState :=
  bitmexMaybeFlip symbol e st.runningPosition
    (bitmexMaybeFlatClose symbol e st.runningPosition
      (bitmexMaybeStart e st.runningPosition (bitmexApplyExec st e)))

/-- Lines 227-232: close a remaining open position at the last pending
execution's timestamp. -/
def bitmexFinalClose (symbol : String) (st : BitmexSymbolState) : BitmexSymbolState :=
  if st.runningPosition ≠ 0 ∧ st.sessionExecutions ≠ [] then
    match st.sessionExecutions.getLast? with
    | some lastE => bitmexCloseSession symbol st lastE.timestamp st.runningPosition
    | none => st
  else st

def bitmexProcessSymbol (acc : List PositionSession × ℕ) (symbol : String)
    (execs : List Execution) : List PositionSession × ℕ :=
  let sorted := List.insertionSort execTsLe execs
  let st0 : BitmexSymbolState := { allSessions := acc.1, globalSessionId := acc.2 }
  let st := bitmexFinalClose symbol (sorted.foldl (bitmexStep symbol) st0)
  (st.allSessions, st.globalSessionId)

def bitmexTradeFilter (executions : List Execution) : List Execution :=
  executions.filter isTradeExecution

def bitmexUnsorted (executions : List Execution) : List PositionSession :=
  ((groupByKey (fun e => e.symbol) (bitmexTradeFilter executions)).foldl
    (fun acc g => bitmexProcessSymbol acc g.1 g.2) ([], 0)).1

/-- Model of `calculateBitMEXPositionSessions`. -/
def calculateBitMEXPositionSessions (executions : List Execution) :
    List PositionSession :=
  List.insertionSort sessionMoreRecent (bitmexUnsorted executions)

/-! ### Binance/OKX (hedge-mode) calculator -/

def BINANCE_POSITION_TOLERANCE : ℚ := 0.01

def BINANCE_SESSION_GAP_MS : ℤ := 2 * 60 * 60 * 1000

/-- Predicate `isBinancePositionClosed`: the epsilon band around a flat position. -/
abbrev isBinancePositionClosed (position : ℚ) : Prop :=
  jsAbs position < BINANCE_POSITION_TOLERANCE

/-- One order's executions summed into a `BinanceAggregatedOrder`. -/
structure BinanceAggregatedOrder where
  orderID : String
  symbol : String
  side : String
  positionSide : String
  totalQty : ℚ
  avgPrice : ℚ
  totalCost : ℚ
  totalComm : ℚ
  realizedPnl : ℚ
  timestamp : ℤ
  executions : List Execution
deriving DecidableEq, Inhabited, Repr

/-- Step 1 of the Binance calculator applied to one `orderID` group:
`symbol` and `side` come from the first execution, quantities, costs,
commissions and parsed PnL are summed, the timestamp is the earliest one. -/
def buildAggregatedOrder (posSideStr orderID : String) (es : List Execution) :
    BinanceAggregatedOrder :=
  match es with
  | [] =>
    { orderID := orderID, symbol := "", side := "", positionSide := posSideStr,
      totalQty := 0, avgPrice := 0, totalCost := 0, totalComm := 0,
      realizedPnl := 0, timestamp := 0, executions := [] }
  | f :: _ =>
    let totalQty := (es.map (fun e => e.lastQty)).sum
    let totalCost := (es.map (fun e => e.lastQty * e.lastPx)).sum
    { orderID := orderID
      symbol := f.symbol
      side := f.side
      positionSide := posSideStr
      totalQty := totalQty
      avgPrice := if 0 < totalQty then totalCost / totalQty else 0
      totalCost := totalCost
      totalComm := (es.map (fun e => e.execComm)).sum
      realizedPnl := (es.map (fun e => parseRealizedPnlFromText e.text)).sum
      timestamp := es.foldl (fun t e => if e.timestamp < t then e.timestamp else t) f.timestamp
      executions := es }

abbrev orderTsLe (a b : BinanceAggregatedOrder) : Prop := a.timestamp ≤ b.timestamp

abbrev tradeDatetimeLe (a b : Trade) : Prop := a.datetime ≤ b.datetime

/-- Steps 1-2 for one (symbol, position-side) partition: aggregate by
`orderID` (map-insertion order), then sort the orders by timestamp. -/
def binanceOrdersOfPartition (posSideStr : String) (part : List Execution) :
    List BinanceAggregatedOrder :=
  List.insertionSort orderTsLe
    ((groupByKey (fun e => e.orderID) part).map
      (fun g => buildAggregatedOrder posSideStr g.1 g.2))

/-- Model of `getPositionDelta`: position change of one aggregated order under the
partition's opening-direction rule. -/
def getPositionDelta (isShortPosition : Bool) (order : BinanceAggregatedOrder) : ℚ :=
  if isShortPosition then
    (if order.side = "Sell" then order.totalQty else -order.totalQty)
  else
    (if order.side = "Buy" then order.totalQty else -order.totalQty)

/-- Whether an order is in the opening direction of its partition. -/
def binanceIsOpening (isShortPosition : Bool) (order : BinanceAggregatedOrder) : Prop :=
  if isShortPosition then order.side = "Sell" else order.side = "Buy"

instance (b : Bool) (o : BinanceAggregatedOrder) : Decidable (binanceIsOpening b o) := by
  unfold binanceIsOpening; infer_instance

def binanceToTrade (e : Execution) : Trade :=
  { id := e.execID
    datetime := e.timestamp
    symbol := e.symbol
    displaySymbol := formatSymbol e.symbol
    side := jsToLower e.side
    price := e.lastPx
    amount := e.lastQty
    cost := jsAbs e.execCost
    feeCost := e.execComm
    feeCurrency := "USDT"
    orderID := e.orderID
    execType := "Trade" }

/-- Replay of the session's orders tracking the peak absolute position. -/
def binanceMaxPosition (isShortPosition : Bool)
    (orders : List BinanceAggregatedOrder) : ℚ :=
  (orders.foldl
    (fun (acc : ℚ × ℚ) o =>
      let p := acc.1 + getPositionDelta isShortPosition o
      (p, jsMax acc.2 (jsAbs p)))
    (0, 0)).2

/-- Mutable per-partition state of `calculateBinancePositionSessions`, plus
the threaded output accumulator. -/
structure BinancePartitionState where
  runningPosition : ℚ := 0
  sessionOrders : List BinanceAggregatedOrder := []
  sessionStartTime : Option ℤ := none
  lastOrderTime : ℤ := 0
  allSessions : List PositionSession := []
  globalSessionId : ℕ := 0
deriving DecidableEq, Inhabited, Repr

/-- The session record built by the Binance `closeSession` closure. -/
def binanceMkSession (symbol posSideStr : String) (isShortPosition : Bool)
    (st : BinancePartitionState) (endTime : ℤ) : PositionSession :=
  let totalEntry :=
    (st.sessionOrders.map
      (fun o => if binanceIsOpening isShortPosition o then o.totalQty else 0)).sum
  let totalEntryCost :=
    (st.sessionOrders.map
      (fun o => if binanceIsOpening isShortPosition o then o.totalCost else 0)).sum
  let totalExit :=
    (st.sessionOrders.map
      (fun o => if binanceIsOpening isShortPosition o then 0 else o.totalQty)).sum
  let totalExitCost :=
    (st.sessionOrders.map
      (fun o => if binanceIsOpening isShortPosition o then 0 else o.totalCost)).sum
  let totalComm := (st.sessionOrders.map (fun o => o.totalComm)).sum
  let realizedPnl := (st.sessionOrders.map (fun o => o.realizedPnl)).sum
  let avgEntryPrice := if 0 < totalEntry then totalEntryCost / totalEntry else 0
  let avgExitPrice := if 0 < totalExit then totalExitCost / totalExit else 0
  let totalFees := jsAbs totalComm / 100000000
  let trades :=
    List.insertionSort tradeDatetimeLe
      ((st.sessionOrders.map (fun o => o.executions.map binanceToTrade)).flatten)
  let isClosed := isBinancePositionClosed (totalEntry - totalExit)
  { id := symbol ++ "-" ++ posSideStr ++ "-" ++ toString st.globalSessionId
    symbol := symbol
    displaySymbol := formatSymbol symbol
    side := if isShortPosition then "short" else "long"
    openTime := st.sessionStartTime.getD 0
    closeTime := if isClosed then some endTime else none
    durationMs := endTime - st.sessionStartTime.getD 0
    maxSize := binanceMaxPosition isShortPosition st.sessionOrders
    totalBought := if isShortPosition then totalExit else totalEntry
    totalSold := if isShortPosition then totalEntry else totalExit
    avgEntryPrice := avgEntryPrice
    avgExitPrice := if isClosed then avgExitPrice else 0
    realizedPnl := if isClosed then realizedPnl else 0
    totalFees := totalFees
    netPnl := if isClosed then realizedPnl - totalFees else -totalFees
    tradeCount := trades.length
    trades := trades
    status := if isClosed then "closed" else "open" }

/-- Binance `closeSession(endTime)`. -/
def binanceCloseSession (symbol posSideStr : String) (isShortPosition : Bool)
    (st : BinancePartitionState) (endTime : ℤ) : BinancePartitionState :=
  if st.sessionOrders = [] ∨ st.sessionStartTime = none then st
  else
    { st with
      allSessions :=
        st.allSessions ++ [binanceMkSession symbol posSideStr isShortPosition st endTime]
      globalSessionId := st.globalSessionId + 1 }

/-- Binance `resetSession()`. -/
def binanceResetSession (st : BinancePartitionState) : BinancePartitionState :=
  { st with sessionOrders := [], sessionStartTime := none }

/-- The time-gap branch body (lines 478-482): close at the last pending
order's timestamp, reset, zero the running position. -/
def binanceGapClose (symbol posSideStr : String) (isShortPosition : Bool)
    (st : BinancePartitionState) : BinancePartitionState :=
  match st.sessionOrders.getLast? with
  | some lastO =>
    { binanceResetSession
        (binanceCloseSession symbol posSideStr isShortPosition st lastO.timestamp) with
      runningPosition := 0 }
  | none => { binanceResetSession st with runningPosition := 0 }

/-- Lines 477-482: the time-gap branch. -/
def binanceMaybeGapClose (symbol posSideStr : String) (isShortPosition : Bool)
    (order : BinanceAggregatedOrder) (st : BinancePartitionState) :
    BinancePartitionState :=
  if BINANCE_SESSION_GAP_MS <
        (if 0 < st.lastOrderTime then order.timestamp - st.lastOrderTime else 0) ∧
      st.sessionOrders ≠ [] ∧ isBinancePositionClosed st.runningPosition then
    binanceGapClose symbol posSideStr isShortPosition st
  else st

/-- Line 485: apply the order's position delta. -/
def binanceApplyDelta (isShortPosition : Bool) (order : BinanceAggregatedOrder)
    (st : BinancePartitionState) : BinancePartitionState :=
  { st with runningPosition := st.runningPosition + getPositionDelta isShortPosition order }

/-- Lines 490-492: record the session start time (`positionBefore` is the
running position at the top of the loop body, before the gap branch). -/
def binanceMaybeStart (order : BinanceAggregatedOrder) (positionBefore : ℚ)
    (st : BinancePartitionState) : BinancePartitionState :=
  if isBinancePositionClosed positionBefore ∧
      ¬ isBinancePositionClosed st.runningPosition ∧ st.sessionOrders = [] then
    { st with sessionStartTime := some order.timestamp }
  else st

/-- Lines 494-495: push the order and remember its time. -/
def binancePush (order : BinanceAggregatedOrder) (st : BinancePartitionState) :
    BinancePartitionState :=
  { st with sessionOrders := st.sessionOrders ++ [order], lastOrderTime := order.timestamp }

/-- Lines 498-502: close the session when the position returns to the
epsilon band. -/
def binanceMaybeEnd (symbol posSideStr : String) (isShortPosition : Bool)
    (order : BinanceAggregatedOrder) (positionBefore : ℚ)
    (st : BinancePartitionState) : BinancePartitionState :=
  if ¬ isBinancePositionClosed positionBefore ∧
      isBinancePositionClosed st.runningPosition then
    { binanceResetSession
        (binanceCloseSession symbol posSideStr isShortPosition st order.timestamp) with
      runningPosition := 0 }
  else st

/-- One iteration of the Binance per-order loop (lines 471-503). -/
def binanceStep (symbol posSideStr : String) (isShortPosition : Bool)
    (st : BinancePartitionState) (order : BinanceAggregatedOrder) :
    BinancePartitionState :=
  binanceMaybeEnd symbol posSideStr isShortPosition order st.runningPosition
    (binancePush order
      (binanceMaybeStart order st.runningPosition
        (binanceApplyDelta isShortPosition order
          (binanceMaybeGapClose symbol posSideStr isShortPosition order st))))

/-- Lines 506-508: close any remaining pending session at the last pending
order's timestamp. -/
def binanceFinalClose (symbol posSideStr : String) (isShortPosition : Bool)
    (st : BinancePartitionState) : BinancePartitionState :=
  if st.sessionOrders ≠ [] then
    match st.sessionOrders.getLast? with
    | some lastO => binanceCloseSession symbol posSideStr isShortPosition st lastO.timestamp
    | none => st
  else st

/-- The hedge-mode grouping key `` `${e.symbol}:${positionSide}` ``. -/
def binanceKeyOf (e : Execution) : String :=
  e.symbol ++ ":" ++ parsePositionSideFromText e.text

/-- Component `key.split(':')[0]`. -/
def symbolOfKey (key : String) : String := (jsSplitColon key).getD 0 ""

/-- Component `key.split(':')[1]`. -/
def posSideOfKey (key : String) : String := (jsSplitColon key).getD 1 ""

/-- Test of `positionSide === 'SHORT'` for a partition key. -/
def isShortOfKey (key : String) : Bool := decide (posSideOfKey key = "SHORT")

/-- The per-partition order fold, from a pristine partition state (used to
state reachable-state facts about a partition's processing). -/
def binancePartFold (key : String) (orders : List BinanceAggregatedOrder) :
    BinancePartitionState :=
  orders.foldl (binanceStep (symbolOfKey key) (posSideOfKey key) (isShortOfKey key)) {}

def binanceProcessPartition (acc : List PositionSession × ℕ) (key : String)
    (part : List Execution) : List PositionSession × ℕ :=
  let symbol := symbolOfKey key
  let posSideStr := posSideOfKey key
  let isShort := isShortOfKey key
  let orders := binanceOrdersOfPartition posSideStr part
  let st0 : BinancePartitionState := { allSessions := acc.1, globalSessionId := acc.2 }
  let st := binanceFinalClose symbol posSideStr isShort
    (orders.foldl (binanceStep symbol posSideStr isShort) st0)
  (st.allSessions, st.globalSessionId)

def binanceTradeFilter (executions : List Execution) : List Execution :=
  executions.filter isTradeExecution

def binanceGroups (executions : List Execution) : List (String × List Execution) :=
  groupByKey binanceKeyOf (binanceTradeFilter executions)

def binanceUnsorted (executions : List Execution) : List PositionSession :=
  ((binanceGroups executions).foldl
    (fun acc g => binanceProcessPartition acc g.1 g.2) ([], 0)).1

/-- Model of `calculateBinancePositionSessions`. -/
def calculateBinancePositionSessions (executions : List Execution) :
    List PositionSession :=
  List.insertionSort sessionMoreRecent (binanceUnsorted executions)

/-! ### Variant of the hedge-mode calculator whose time-gap branch performs
no session finalization (it still resets) — used to state that the time-gap
branch never emits a session. -/

/-- The time-gap branch with the `closeSession` call removed (the reset and
position zeroing remain). -/
def binanceMaybeGapReset (order : BinanceAggregatedOrder)
    (st : BinancePartitionState) : BinancePartitionState :=
  if BINANCE_SESSION_GAP_MS <
        (if 0 < st.lastOrderTime then order.timestamp - st.lastOrderTime else 0) ∧
      st.sessionOrders ≠ [] ∧ isBinancePositionClosed st.runningPosition then
    { binanceResetSession st with runningPosition := 0 }
  else st

def binanceStepNoGapEmit (symbol posSideStr : String) (isShortPosition : Bool)
    (st : BinancePartitionState) (order : BinanceAggregatedOrder) :
    BinancePartitionState :=
  binanceMaybeEnd symbol posSideStr isShortPosition order st.runningPosition
    (binancePush order
      (binanceMaybeStart order st.runningPosition
        (binanceApplyDelta isShortPosition order
          (binanceMaybeGapReset order st))))

def binanceProcessPartitionNoGapEmit (acc : List PositionSession × ℕ) (key : String)
    (part : List Execution) : List PositionSession × ℕ :=
  let symbol := symbolOfKey key
  let posSideStr := posSideOfKey key
  let isShort := isShortOfKey key
  let orders := binanceOrdersOfPartition posSideStr part
  let st0 : BinancePartitionState := { allSessions := acc.1, globalSessionId := acc.2 }
  let st := binanceFinalClose symbol posSideStr isShort
    (orders.foldl (binanceStepNoGapEmit symbol posSideStr isShort) st0)
  (st.allSessions, st.globalSessionId)

def calculateBinancePositionSessionsNoGapEmit (executions : List Execution) :
    List PositionSession :=
  List.insertionSort sessionMoreRecent
    (((binanceGroups executions).foldl
      (fun acc g => binanceProcessPartitionNoGapEmit acc g.1 g.2) ([], 0)).1)

/-! ### Dispatcher -/

/-- Model of `calculatePositionSessionsFromExecutions`. The predicate
`isBinanceSymbol` is imported by the calculator from `types.ts`, which is not
among the sources; it is kept as a parameter. Modelled from the spec: the
missing `isBinanceSymbol` recognizes a hedge-mode "stablecoin-pair delimiter
pattern" symbol shape; nothing here depends on its exact value. -/
def calculatePositionSessionsFromExecutions (isBinanceSymbol : String → Bool)
    (executions : List Execution) (exchangeId : Option String) :
    List PositionSession :=
  match executions with
  | [] => []
  | e :: rest =>
    let firstSymbol := e.symbol
    if (exchangeId = some "binance" ∨ isBinanceSymbol firstSymbol = true) ∨
       (exchangeId = some "okx" ∨ jsIncludes firstSymbol "-SWAP" = true ∨
        jsIncludes firstSymbol "-USDT-" = true) then
      calculateBinancePositionSessions (e :: rest)
    else
      calculateBitMEXPositionSessions (e :: rest)

/-! ### Measures used by the claims -/

/-- Total number of occurrences of the trade `t` across the trades lists of
all sessions in `sessions`. -/
def sessionTradeOccurrences (t : Trade) (sessions : List PositionSession) : ℕ :=
  (sessions.map (fun s => s.trades.count t)).sum

/-- Whether, starting from position `pos`, some order of the list brings the
running position (first) back into the epsilon band. -/
def bandReturn (isShortPosition : Bool) (pos : ℚ) :
    List BinanceAggregatedOrder → Bool
  | [] => false
  | o :: rest =>
    if isBinancePositionClosed (pos + getPositionDelta isShortPosition o) then true
    else bandReturn isShortPosition (pos + getPositionDelta isShortPosition o) rest

/-- Invariant of the Binance per-partition loop: while the running position
is inside the epsilon band, no session start time is recorded. -/
def gapInv (st : BinancePartitionState) : Prop :=
  isBinancePositionClosed st.runningPosition → st.sessionStartTime = none

/-- Invariant of the Binance per-partition loop: the running position is
the sum of the pending orders' position deltas. -/
def posInv (ish : Bool) (st : BinancePartitionState) : Prop :=
  st.runningPosition = (st.sessionOrders.map (getPositionDelta ish)).sum

/-- The (sessions, next-id) accumulator after processing a list of
partitions. -/
def binanceAccAfter (gs : List (String × List Execution)) :
    List PositionSession × ℕ :=
  gs.foldl (fun acc g => binanceProcessPartition acc g.1 g.2) ([], 0)

/-- The partition state reached after processing the orders `done` of the
partition `key`, starting from the accumulator `acc`. -/
def binanceStateAfter (key : String) (acc : List PositionSession × ℕ)
    (done : List BinanceAggregatedOrder) : BinancePartitionState :=
  done.foldl (binanceStep (symbolOfKey key) (posSideOfKey key) (isShortOfKey key))
    { allSessions := acc.1, globalSessionId := acc.2 }

/-- Number of occurrences, in the filtered execution list `l`, of
executions whose BitMEX trade record is `t`. -/
def bitmexExecOcc (t : Trade) (l : List Execution) : ℕ :=
  l.countP (fun e => bitmexToTrade e == t)

/-- Occurrence measure of the BitMEX loop state: occurrences of `t` across
emitted sessions plus pending executions mapping to `t`. -/
def bitmexOccMeasure (t : Trade) (st : BitmexSymbolState) : ℕ :=
  sessionTradeOccurrences t st.allSessions + bitmexExecOcc t st.sessionExecutions

def binanceExecOcc (t : Trade) (l : List Execution) : ℕ :=
  l.countP (fun e => binanceToTrade e == t)

/-- Occurrences of `t` across the executions of a list of aggregated
orders. -/
def binanceOrderOcc (t : Trade) (orders : List BinanceAggregatedOrder) : ℕ :=
  (orders.map (fun o => binanceExecOcc t o.executions)).sum

/-- Occurrence measure of the Binance loop state. -/
def binanceOccMeasure (t : Trade) (st : BinancePartitionState) : ℕ :=
  sessionTradeOccurrences t st.allSessions + binanceOrderOcc t st.sessionOrders

/-! ### Concrete scenario inputs from the specification -/

/-- A trade execution with zero cost/commission (the fields the scenarios
leave unspecified). -/
def mkExec (id oid sym sd : String) (q px : ℚ) (ts : ℤ) (txt : String) : Execution :=
  { execID := id, orderID := oid, symbol := sym, side := sd, execType := "Trade",
    lastQty := q, lastPx := px, execCost := 0, execComm := 0, timestamp := ts, text := txt }

/-- Scenario A: [Buy 100 @ 50000 t=0], [Sell 100 @ 51000 t=10] on one
inverse symbol. -/
def scenarioAInput : List Execution :=
  [mkExec "e1" "o1" "XBTUSD" "Buy" 100 50000 0 "",
   mkExec "e2" "o2" "XBTUSD" "Sell" 100 51000 10 ""]

/-- Scenario B: [Buy 5 @ 100 t=0], [Sell 12 @ 110 t=5] (a position flip). -/
def scenarioBInput : List Execution :=
  [mkExec "e1" "o1" "XBTUSD" "Buy" 5 100 0 "",
   mkExec "e2" "o2" "XBTUSD" "Sell" 12 110 5 ""]

/-- The flip-triggering execution of scenario B. -/
def scenarioBFlipExec : Execution := mkExec "e2" "o2" "XBTUSD" "Sell" 12 110 5 ""

/-- Scenario C: order1 Buy 1 t=0 tagged LONG, order2 Sell 1 t=1 tagged
SHORT, order3 Buy 1 t=2 tagged SHORT, all on symbol Y. -/
def scenarioCInput : List Execution :=
  [mkExec "e1" "o1" "Y" "Buy" 1 100 0 "positionSide: LONG",
   mkExec "e2" "o2" "Y" "Sell" 1 90 1 "positionSide: SHORT",
   mkExec "e3" "o3" "Y" "Buy" 1 80 2 "positionSide: SHORT"]

/-- A hedge-mode input whose first (tiny) order keeps the position inside
the epsilon band and whose second order moves it outside the band. -/
def tinyThenLargeInput : List Execution :=
  [mkExec "e1" "a" "Z" "Buy" 0.005 100 0 "positionSide: LONG",
   mkExec "e2" "b" "Z" "Buy" 1 100 1 "positionSide: LONG"]

/-- One otherwise-valid trade execution whose order identifier is empty. -/
def emptyOrderIdExec : Execution := mkExec "x" "" "XBTUSD" "Buy" 1 100 0 ""

/-- A flip-shaped input on an OKX-shaped symbol (contains `-SWAP`). -/
def okxSwapInput : List Execution :=
  [mkExec "f1" "o1" "BTC-USD-SWAP" "Buy" 5 100 0 "",
   mkExec "f2" "o2" "BTC-USD-SWAP" "Sell" 12 110 5 ""]

/-- A single LONG-tagged buy on symbol W (used to witness hedge-mode
session-start facts). -/
def singleLongExec : Execution := mkExec "w1" "w" "W" "Buy" 1 100 0 "positionSide: LONG"

end PositionCalculator

namespace PositionCalculator

/-! ## Theorems -/

set_option maxRecDepth 10000

/-- C1: On [Buy 100 @ 50000 t=0], [Sell 100 @ 51000 t=10] the inverse
calculator yields exactly one closed session with
realizedPnl = 100·(1/50000 − 1/51000) > 0 as the claim states, but — because
at an exact round trip `totalBought > totalSold` is false — the session is
labelled `short` with avgEntryPrice = 51000 and avgExitPrice = 50000,
not `long` with 50000/51000 as the claim and the code's own
"side based on first non-zero position" comment say. -/
theorem claim1_inverse_round_trip_evaluation :
    (calculateBitMEXPositionSessions scenarioAInput).length = 1 ∧
    (calculateBitMEXPositionSessions scenarioAInput).headI.status = "closed" ∧
    (calculateBitMEXPositionSessions scenarioAInput).headI.totalBought = 100 ∧
    (calculateBitMEXPositionSessions scenarioAInput).headI.totalSold = 100 ∧
    (calculateBitMEXPositionSessions scenarioAInput).headI.realizedPnl
      = 100 * (1 / 50000 - 1 / 51000) ∧
    (0 : ℚ) < 100 * (1 / 50000 - 1 / 51000) ∧
    (calculateBitMEXPositionSessions scenarioAInput).headI.side = "short" ∧
    (calculateBitMEXPositionSessions scenarioAInput).headI.avgEntryPrice = 51000 ∧
    (calculateBitMEXPositionSessions scenarioAInput).headI.avgExitPrice = 50000 := by
  refine ⟨?_, ?_, ?_, ?_, ?_, ?_, ?_, ?_, ?_⟩
  all_goals with_unfolding_all rfl

/-- C3: On the flip input [Buy 5 @ 100 t=0], [Sell 12 @ 110 t=5] the inverse
calculator yields exactly two sessions; the first is closed with
totalBought = totalSold = 5 and the second is an open short session seeded
with 7 contracts at price 110 with maxSize 7 and open time 5, as the claim
states — but the first session has avgEntryPrice = 110 and
avgExitPrice = 100 (it is labelled `short` at the `totalBought > totalSold`
tie), not entry 100 / exit 110 as the claim says. -/
theorem claim3_flip_evaluation :
    (calculateBitMEXPositionSessions scenarioBInput).length = 2 ∧
    (calculateBitMEXPositionSessions scenarioBInput).headI.status = "closed" ∧
    (calculateBitMEXPositionSessions scenarioBInput).headI.totalBought = 5 ∧
    (calculateBitMEXPositionSessions scenarioBInput).headI.totalSold = 5 ∧
    (calculateBitMEXPositionSessions scenarioBInput).headI.avgEntryPrice = 110 ∧
    (calculateBitMEXPositionSessions scenarioBInput).headI.avgExitPrice = 100 ∧
    ((calculateBitMEXPositionSessions scenarioBInput).getD 1 default).status = "open" ∧
    ((calculateBitMEXPositionSessions scenarioBInput).getD 1 default).side = "short" ∧
    ((calculateBitMEXPositionSessions scenarioBInput).getD 1 default).totalSold -
      ((calculateBitMEXPositionSessions scenarioBInput).getD 1 default).totalBought = 7 ∧
    ((calculateBitMEXPositionSessions scenarioBInput).getD 1 default).avgEntryPrice = 110 ∧
    ((calculateBitMEXPositionSessions scenarioBInput).getD 1 default).maxSize = 7 ∧
    ((calculateBitMEXPositionSessions scenarioBInput).getD 1 default).openTime = 5 := by
  refine ⟨?_, ?_, ?_, ?_, ?_, ?_, ?_, ?_, ?_, ?_, ?_, ?_⟩
  all_goals with_unfolding_all rfl

/-- C5: On scenario C (order1 Buy 1 t=0 tagged LONG; order2 Sell 1 t=1 and
order3 Buy 1 t=2 tagged SHORT, all on symbol Y) the hedge-mode calculator
yields exactly two sessions: a closed SHORT session containing order2 and
order3, and an open LONG session containing only order1 — the two
(symbol, position-side) books are processed independently. -/
theorem claim5_hedge_independent_books :
    (calculateBinancePositionSessions scenarioCInput).length = 2 ∧
    (calculateBinancePositionSessions scenarioCInput).headI.side = "short" ∧
    (calculateBinancePositionSessions scenarioCInput).headI.status = "closed" ∧
    (calculateBinancePositionSessions scenarioCInput).headI.symbol = "Y" ∧
    (calculateBinancePositionSessions scenarioCInput).headI.openTime = 1 ∧
    (calculateBinancePositionSessions scenarioCInput).headI.closeTime = some 2 ∧
    (calculateBinancePositionSessions scenarioCInput).headI.trades.map (fun t => t.id)
      = ["e2", "e3"] ∧
    ((calculateBinancePositionSessions scenarioCInput).getD 1 default).side = "long" ∧
    ((calculateBinancePositionSessions scenarioCInput).getD 1 default).status = "open" ∧
    ((calculateBinancePositionSessions scenarioCInput).getD 1 default).openTime = 0 ∧
    ((calculateBinancePositionSessions scenarioCInput).getD 1 default).closeTime = none ∧
    ((calculateBinancePositionSessions scenarioCInput).getD 1 default).trades.map
      (fun t => t.id) = ["e1"] := by
  refine ⟨?_, ?_, ?_, ?_, ?_, ?_, ?_, ?_, ?_, ?_, ?_, ?_⟩
  all_goals with_unfolding_all rfl

/-- C2 counterexample: on the flip input of scenario B the flip-triggering
execution appears in the trades lists of two distinct emitted sessions (both
the session closed at the flip and the new overflow session), although it
occurs only once in the filtered input — refuting "each filtered execution
appears in the trades list of at most one emitted session". -/
theorem claim2_counterexample :
    (calculateBitMEXPositionSessions scenarioBInput).countP
      (fun s => decide (bitmexToTrade scenarioBFlipExec ∈ s.trades)) = 2 ∧
    (bitmexTradeFilter scenarioBInput).countP
      (fun e => bitmexToTrade e == bitmexToTrade scenarioBFlipExec) = 1 := by
  exact ⟨by with_unfolding_all rfl, by with_unfolding_all rfl⟩

/-- C4 counterexample: on `tinyThenLargeInput` the second order moves the
partition's running position from inside the epsilon band (|0.005| < 0.01)
to outside it (|1.005| ≥ 0.01), yet the hedge-mode calculator emits no
session at all (in particular none with open time 1), because a session
start is only recorded when additionally no orders are pending. -/
theorem claim4_counterexample :
    calculateBinancePositionSessions tinyThenLargeInput = [] ∧
    isBinancePositionClosed 0.005 ∧ ¬ isBinancePositionClosed (0.005 + 1) := by
  refine ⟨?_, ?_, ?_⟩
  · with_unfolding_all rfl
  · with_unfolding_all exact of_decide_eq_true rfl
  · with_unfolding_all exact of_decide_eq_false rfl

/-- C6 counterexample: an execution with an empty order identifier (but
execType `Trade` and positive quantity) is kept by the inverse calculator's
filter and contributes to an emitted session — refuting "every execution
with an empty order identifier is dropped and contributes to no session". -/
theorem claim6_counterexample :
    bitmexTradeFilter [emptyOrderIdExec] = [emptyOrderIdExec] ∧
    emptyOrderIdExec.orderID = "" ∧
    (calculateBitMEXPositionSessions [emptyOrderIdExec]).length = 1 ∧
    (calculateBitMEXPositionSessions [emptyOrderIdExec]).headI.trades.map
      (fun t => t.orderID) = [""] := by
  refine ⟨?_, ?_, ?_, ?_⟩
  all_goals with_unfolding_all rfl

/-- C7 counterexample: with the explicit hint "bitmex" supplied, the
dispatcher still inspects the first symbol; on an `-SWAP`-shaped symbol it
routes to the hedge-mode calculator (1 session) instead of the hinted
inverse calculator (2 sessions) — refuting "when an exchange hint is
supplied it routes by the hint, and only when the hint is absent does it
inspect the first execution's symbol". -/
theorem claim7_counterexample :
    (calculatePositionSessionsFromExecutions (fun _ => false) okxSwapInput
      (some "bitmex")).length = 1 ∧
    (calculateBitMEXPositionSessions okxSwapInput).length = 2 := by
  exact ⟨by with_unfolding_all rfl, by with_unfolding_all rfl⟩

/-- C6 (amended): the inverse calculator's filter keeps exactly the
executions marked `Trade` with a truthy (non-empty) side string and positive
quantity; the order identifier is not examined. -/
theorem claim6_filter_characterization :
    ∀ (execs : List Execution) (e : Execution),
      e ∈ bitmexTradeFilter execs ↔
        (e ∈ execs ∧ e.execType = "Trade" ∧ e.side ≠ "" ∧ 0 < e.lastQty) := by
  intro execs e
  simp [bitmexTradeFilter, List.mem_filter, isTradeExecution]

/-- C7 (amended): the dispatcher performs one classification per call and
routes the whole input to exactly one calculator: the empty list yields the
empty output, and otherwise it routes to the hedge-mode calculator iff the
hint is "binance" or "okx" **or** the first execution's symbol is
Binance-shaped or contains "-SWAP" or "-USDT-" — the symbol shape is
consulted even when a hint is supplied; all other input goes to the
inverse-contract calculator. -/
theorem claim7_dispatcher_routing :
    (∀ (p : String → Bool) (hint : Option String),
      calculatePositionSessionsFromExecutions p [] hint = []) ∧
    (∀ (p : String → Bool) (hint : Option String) (e : Execution)
        (rest : List Execution),
      calculatePositionSessionsFromExecutions p (e :: rest) hint =
        if (hint = some "binance" ∨ p e.symbol = true) ∨
           (hint = some "okx" ∨ jsIncludes e.symbol "-SWAP" = true ∨
            jsIncludes e.symbol "-USDT-" = true) then
          calculateBinancePositionSessions (e :: rest)
        else calculateBitMEXPositionSessions (e :: rest)) :=
  ⟨fun _ _ => rfl, fun _ _ _ _ => rfl⟩

/-- C10: both calculators return their sessions sorted most-recent-first:
descending by close time for closed sessions and open time for open ones. -/
theorem claim10_sessions_sorted (executions : List Execution) :
    List.Sorted sessionMoreRecent (calculateBitMEXPositionSessions executions) ∧
    List.Sorted sessionMoreRecent (calculateBinancePositionSessions executions) :=
  ⟨List.sorted_insertionSort _ _, List.sorted_insertionSort _ _⟩


/-! ### Session-origin lemmas: every emitted session is a `mkSession` -/

theorem jsAbs_nonneg (q : ℚ) : 0 ≤ jsAbs q := by
  unfold jsAbs; split <;> linarith

theorem bitmexMkSession_totalFees (symbol : String) (st : BitmexSymbolState)
    (et : ℤ) (ep : ℚ) :
    (bitmexMkSession symbol st et ep).totalFees = jsAbs st.totalCommission / 100000000 :=
  rfl

theorem bitmexApplyExec_allSessions (st : BitmexSymbolState) (e : Execution) :
    (bitmexApplyExec st e).allSessions = st.allSessions := by
  simp only [bitmexApplyExec]; split <;> rfl

theorem bitmexResetSession_allSessions (st : BitmexSymbolState) :
    (bitmexResetSession st).allSessions = st.allSessions := rfl

theorem mem_allSessions_bitmexCloseSession {s : PositionSession} {symbol : String}
    {st : BitmexSymbolState} {et : ℤ} {ep : ℚ}
    (h : s ∈ (bitmexCloseSession symbol st et ep).allSessions) :
    s ∈ st.allSessions ∨ s = bitmexMkSession symbol st et ep := by
  unfold bitmexCloseSession at h
  split at h
  · exact Or.inl h
  · rcases List.mem_append.1 h with h1 | h2
    · exact Or.inl h1
    · exact Or.inr (List.mem_singleton.1 h2)

theorem bitmexMaybeStart_allSessions (e : Execution) (pb : ℚ) (st : BitmexSymbolState) :
    (bitmexMaybeStart e pb st).allSessions = st.allSessions := by
  unfold bitmexMaybeStart; split <;> rfl

theorem mem_allSessions_bitmexMaybeFlatClose {s : PositionSession} {symbol : String}
    {e : Execution} {pb : ℚ} {st : BitmexSymbolState}
    (h : s ∈ (bitmexMaybeFlatClose symbol e pb st).allSessions) :
    s ∈ st.allSessions ∨
      ∃ (st' : BitmexSymbolState) (et : ℤ) (ep : ℚ),
        s = bitmexMkSession symbol st' et ep := by
  unfold bitmexMaybeFlatClose at h
  split at h
  · rw [bitmexResetSession_allSessions] at h
    rcases mem_allSessions_bitmexCloseSession h with h1 | h1
    · exact Or.inl h1
    · exact Or.inr ⟨_, _, _, h1⟩
  · exact Or.inl h

theorem mem_allSessions_bitmexFlip {s : PositionSession} {symbol : String}
    {e : Execution} {st : BitmexSymbolState}
    (h : s ∈ (bitmexFlip symbol e st).allSessions) :
    s ∈ st.allSessions ∨
      ∃ (st' : BitmexSymbolState) (et : ℤ) (ep : ℚ),
        s = bitmexMkSession symbol st' et ep := by
  unfold bitmexFlip at h
  simp only [bitmexResetSession_allSessions] at h
  rcases mem_allSessions_bitmexCloseSession h with h1 | h1
  · left
    revert h1
    split <;> intro h1 <;> exact h1
  · exact Or.inr ⟨_, _, _, h1⟩

theorem mem_allSessions_bitmexMaybeFlip {s : PositionSession} {symbol : String}
    {e : Execution} {pb : ℚ} {st : BitmexSymbolState}
    (h : s ∈ (bitmexMaybeFlip symbol e pb st).allSessions) :
    s ∈ st.allSessions ∨
      ∃ (st' : BitmexSymbolState) (et : ℤ) (ep : ℚ),
        s = bitmexMkSession symbol st' et ep := by
  unfold bitmexMaybeFlip at h
  split at h
  · exact mem_allSessions_bitmexFlip h
  · exact Or.inl h

/-- Any session present after one step of the BitMEX loop was already
present or is a `bitmexMkSession` for this symbol. -/
theorem mem_allSessions_bitmexStep {s : PositionSession} {symbol : String}
    {st : BitmexSymbolState} {e : Execution}
    (h : s ∈ (bitmexStep symbol st e).allSessions) :
    s ∈ st.allSessions ∨
      ∃ (st' : BitmexSymbolState) (et : ℤ) (ep : ℚ),
        s = bitmexMkSession symbol st' et ep := by
  unfold bitmexStep at h
  rcases mem_allSessions_bitmexMaybeFlip h with h1 | h1
  · rcases mem_allSessions_bitmexMaybeFlatClose h1 with h2 | h2
    · rw [bitmexMaybeStart_allSessions, bitmexApplyExec_allSessions] at h2
      exact Or.inl h2
    · exact Or.inr h2
  · exact Or.inr h1

theorem mem_allSessions_bitmexFoldl {s : PositionSession} {symbol : String} :
    ∀ (l : List Execution) (st : BitmexSymbolState),
      s ∈ (l.foldl (bitmexStep symbol) st).allSessions →
      s ∈ st.allSessions ∨
        ∃ (st' : BitmexSymbolState) (et : ℤ) (ep : ℚ),
          s = bitmexMkSession symbol st' et ep := by
  intro l
  induction l with
  | nil => intro st h; exact Or.inl h
  | cons a l ih =>
    intro st h
    rcases ih (bitmexStep symbol st a) h with h1 | h1
    · exact mem_allSessions_bitmexStep h1
    · exact Or.inr h1

theorem mem_allSessions_bitmexFinalClose {s : PositionSession} {symbol : String}
    {st : BitmexSymbolState}
    (h : s ∈ (bitmexFinalClose symbol st).allSessions) :
    s ∈ st.allSessions ∨
      ∃ (st' : BitmexSymbolState) (et : ℤ) (ep : ℚ),
        s = bitmexMkSession symbol st' et ep := by
  unfold bitmexFinalClose at h
  split at h
  · split at h
    · rcases mem_allSessions_bitmexCloseSession h with h1 | h1
      · exact Or.inl h1
      · exact Or.inr ⟨_, _, _, h1⟩
    · exact Or.inl h
  · exact Or.inl h

theorem mem_bitmexProcessSymbol {s : PositionSession}
    {acc : List PositionSession × ℕ} {symbol : String} {execs : List Execution}
    (h : s ∈ (bitmexProcessSymbol acc symbol execs).1) :
    s ∈ acc.1 ∨
      ∃ (st' : BitmexSymbolState) (et : ℤ) (ep : ℚ),
        s = bitmexMkSession symbol st' et ep := by
  simp only [bitmexProcessSymbol] at h
  rcases mem_allSessions_bitmexFinalClose h with h1 | h1
  · rcases mem_allSessions_bitmexFoldl _ _ h1 with h2 | h2
    · exact Or.inl h2
    · exact Or.inr h2
  · exact Or.inr h1

/-- Every session produced by the BitMEX calculator is a `bitmexMkSession`. -/
theorem mem_calculateBitMEXPositionSessions {s : PositionSession}
    {executions : List Execution}
    (h : s ∈ calculateBitMEXPositionSessions executions) :
    ∃ (symbol : String) (st' : BitmexSymbolState) (et : ℤ) (ep : ℚ),
      s = bitmexMkSession symbol st' et ep := by
  unfold calculateBitMEXPositionSessions at h
  rw [List.mem_insertionSort] at h
  unfold bitmexUnsorted at h
  revert h
  generalize hg : groupByKey (fun e => e.symbol) (bitmexTradeFilter executions) = groups
  clear hg
  have main : ∀ (gs : List (String × List Execution)) (acc : List PositionSession × ℕ),
      s ∈ (gs.foldl (fun acc g => bitmexProcessSymbol acc g.1 g.2) acc).1 →
      s ∈ acc.1 ∨
        ∃ (symbol : String) (st' : BitmexSymbolState) (et : ℤ) (ep : ℚ),
          s = bitmexMkSession symbol st' et ep := by
    intro gs
    induction gs with
    | nil => intro acc h; exact Or.inl h
    | cons g gs ih =>
      intro acc h
      rcases ih _ h with h1 | h1
      · rcases mem_bitmexProcessSymbol h1 with h2 | h2
        · exact Or.inl h2
        · exact Or.inr ⟨_, h2⟩
      · exact Or.inr h1
  intro h
  rcases main _ ([], 0) h with h1 | h1
  · exact absurd h1 (List.not_mem_nil s)
  · exact h1


theorem binanceMkSession_totalFees (symbol posSideStr : String) (ish : Bool)
    (st : BinancePartitionState) (et : ℤ) :
    (binanceMkSession symbol posSideStr ish st et).totalFees
      = jsAbs ((st.sessionOrders.map (fun o => o.totalComm)).sum) / 100000000 :=
  rfl

theorem binanceResetSession_allSessions (st : BinancePartitionState) :
    (binanceResetSession st).allSessions = st.allSessions := rfl

theorem mem_allSessions_binanceCloseSession {s : PositionSession}
    {symbol posSideStr : String} {ish : Bool} {st : BinancePartitionState} {et : ℤ}
    (h : s ∈ (binanceCloseSession symbol posSideStr ish st et).allSessions) :
    s ∈ st.allSessions ∨ s = binanceMkSession symbol posSideStr ish st et := by
  unfold binanceCloseSession at h
  split at h
  · exact Or.inl h
  · rcases List.mem_append.1 h with h1 | h2
    · exact Or.inl h1
    · exact Or.inr (List.mem_singleton.1 h2)

theorem mem_allSessions_binanceGapClose {s : PositionSession}
    {symbol posSideStr : String} {ish : Bool} {st : BinancePartitionState}
    (h : s ∈ (binanceGapClose symbol posSideStr ish st).allSessions) :
    s ∈ st.allSessions ∨
      ∃ (st' : BinancePartitionState) (et : ℤ),
        s = binanceMkSession symbol posSideStr ish st' et := by
  unfold binanceGapClose at h
  split at h
  · rcases mem_allSessions_binanceCloseSession h with h1 | h1
    · exact Or.inl h1
    · exact Or.inr ⟨_, _, h1⟩
  · exact Or.inl h

theorem mem_allSessions_binanceMaybeGapClose {s : PositionSession}
    {symbol posSideStr : String} {ish : Bool} {o : BinanceAggregatedOrder}
    {st : BinancePartitionState}
    (h : s ∈ (binanceMaybeGapClose symbol posSideStr ish o st).allSessions) :
    s ∈ st.allSessions ∨
      ∃ (st' : BinancePartitionState) (et : ℤ),
        s = binanceMkSession symbol posSideStr ish st' et := by
  unfold binanceMaybeGapClose at h
  by_cases hc : BINANCE_SESSION_GAP_MS <
      (if 0 < st.lastOrderTime then o.timestamp - st.lastOrderTime else 0) ∧
      st.sessionOrders ≠ [] ∧ isBinancePositionClosed st.runningPosition
  · rw [if_pos hc] at h
    exact mem_allSessions_binanceGapClose h
  · rw [if_neg hc] at h
    exact Or.inl h

theorem binanceApplyDelta_allSessions (ish : Bool) (o : BinanceAggregatedOrder)
    (st : BinancePartitionState) :
    (binanceApplyDelta ish o st).allSessions = st.allSessions := rfl

theorem binanceMaybeStart_allSessions (o : BinanceAggregatedOrder) (pb : ℚ)
    (st : BinancePartitionState) :
    (binanceMaybeStart o pb st).allSessions = st.allSessions := by
  unfold binanceMaybeStart; split <;> rfl

theorem binancePush_allSessions (o : BinanceAggregatedOrder)
    (st : BinancePartitionState) :
    (binancePush o st).allSessions = st.allSessions := rfl

theorem mem_allSessions_binanceMaybeEnd {s : PositionSession}
    {symbol posSideStr : String} {ish : Bool} {o : BinanceAggregatedOrder} {pb : ℚ}
    {st : BinancePartitionState}
    (h : s ∈ (binanceMaybeEnd symbol posSideStr ish o pb st).allSessions) :
    s ∈ st.allSessions ∨
      ∃ (st' : BinancePartitionState) (et : ℤ),
        s = binanceMkSession symbol posSideStr ish st' et := by
  unfold binanceMaybeEnd at h
  split at h
  · rcases mem_allSessions_binanceCloseSession h with h1 | h1
    · exact Or.inl h1
    · exact Or.inr ⟨_, _, h1⟩
  · exact Or.inl h

theorem mem_allSessions_binanceStep {s : PositionSession}
    {symbol posSideStr : String} {ish : Bool} {st : BinancePartitionState}
    {o : BinanceAggregatedOrder}
    (h : s ∈ (binanceStep symbol posSideStr ish st o).allSessions) :
    s ∈ st.allSessions ∨
      ∃ (st' : BinancePartitionState) (et : ℤ),
        s = binanceMkSession symbol posSideStr ish st' et := by
  unfold binanceStep at h
  rcases mem_allSessions_binanceMaybeEnd h with h1 | h1
  · rw [binancePush_allSessions, binanceMaybeStart_allSessions,
      binanceApplyDelta_allSessions] at h1
    exact mem_allSessions_binanceMaybeGapClose h1
  · exact Or.inr h1

theorem mem_allSessions_binanceFoldl {s : PositionSession}
    {symbol posSideStr : String} {ish : Bool} :
    ∀ (l : List BinanceAggregatedOrder) (st : BinancePartitionState),
      s ∈ (l.foldl (binanceStep symbol posSideStr ish) st).allSessions →
      s ∈ st.allSessions ∨
        ∃ (st' : BinancePartitionState) (et : ℤ),
          s = binanceMkSession symbol posSideStr ish st' et := by
  intro l
  induction l with
  | nil => intro st h; exact Or.inl h
  | cons a l ih =>
    intro st h
    rcases ih _ h with h1 | h1
    · exact mem_allSessions_binanceStep h1
    · exact Or.inr h1

theorem mem_allSessions_binanceFinalClose {s : PositionSession}
    {symbol posSideStr : String} {ish : Bool} {st : BinancePartitionState}
    (h : s ∈ (binanceFinalClose symbol posSideStr ish st).allSessions) :
    s ∈ st.allSessions ∨
      ∃ (st' : BinancePartitionState) (et : ℤ),
        s = binanceMkSession symbol posSideStr ish st' et := by
  unfold binanceFinalClose at h
  split at h
  · split at h
    · rcases mem_allSessions_binanceCloseSession h with h1 | h1
      · exact Or.inl h1
      · exact Or.inr ⟨_, _, h1⟩
    · exact Or.inl h
  · exact Or.inl h

theorem mem_binanceProcessPartition {s : PositionSession}
    {acc : List PositionSession × ℕ} {key : String} {part : List Execution}
    (h : s ∈ (binanceProcessPartition acc key part).1) :
    s ∈ acc.1 ∨
      ∃ (symbol posSideStr : String) (ish : Bool) (st' : BinancePartitionState) (et : ℤ),
        s = binanceMkSession symbol posSideStr ish st' et := by
  simp only [binanceProcessPartition] at h
  rcases mem_allSessions_binanceFinalClose h with h1 | h1
  · rcases mem_allSessions_binanceFoldl _ _ h1 with h2 | h2
    · exact Or.inl h2
    · exact Or.inr ⟨_, _, _, h2⟩
  · exact Or.inr ⟨_, _, _, h1⟩

/-- Every session produced by the Binance calculator is a `binanceMkSession`. -/
theorem mem_calculateBinancePositionSessions {s : PositionSession}
    {executions : List Execution}
    (h : s ∈ calculateBinancePositionSessions executions) :
    ∃ (symbol posSideStr : String) (ish : Bool) (st' : BinancePartitionState) (et : ℤ),
      s = binanceMkSession symbol posSideStr ish st' et := by
  unfold calculateBinancePositionSessions at h
  rw [List.mem_insertionSort] at h
  unfold binanceUnsorted at h
  revert h
  generalize binanceGroups executions = groups
  have main : ∀ (gs : List (String × List Execution)) (acc : List PositionSession × ℕ),
      s ∈ (gs.foldl (fun acc g => binanceProcessPartition acc g.1 g.2) acc).1 →
      s ∈ acc.1 ∨
        ∃ (symbol posSideStr : String) (ish : Bool) (st' : BinancePartitionState) (et : ℤ),
          s = binanceMkSession symbol posSideStr ish st' et := by
    intro gs
    induction gs with
    | nil => intro acc h; exact Or.inl h
    | cons g gs ih =>
      intro acc h
      rcases ih _ h with h1 | h1
      · rcases mem_binanceProcessPartition h1 with h2 | h2
        · exact Or.inl h2
        · exact Or.inr h2
      · exact Or.inr h1
  intro h
  rcases main _ ([], 0) h with h1 | h1
  · exact absurd h1 (List.not_mem_nil s)
  · exact h1

/-- C9: every session emitted by either calculator has non-negative
totalFees (the absolute value of the summed commission divided by 10^8),
whatever the signs of the input commissions. -/
theorem claim9_fees_nonneg (executions : List Execution) :
    (∀ s ∈ calculateBitMEXPositionSessions executions, 0 ≤ s.totalFees) ∧
    (∀ s ∈ calculateBinancePositionSessions executions, 0 ≤ s.totalFees) := by
  constructor
  · intro s hs
    obtain ⟨symbol, st', et, ep, rfl⟩ := mem_calculateBitMEXPositionSessions hs
    rw [bitmexMkSession_totalFees]
    exact div_nonneg (jsAbs_nonneg _) (by norm_num)
  · intro s hs
    obtain ⟨symbol, ps, ish, st', et, rfl⟩ := mem_calculateBinancePositionSessions hs
    rw [binanceMkSession_totalFees]
    exact div_nonneg (jsAbs_nonneg _) (by norm_num)

theorem headI_mem_self {α : Type} [Inhabited α] {l : List α} (h : l ≠ []) :
    l.headI ∈ l := by
  cases l with
  | nil => exact absurd rfl h
  | cons a t => exact List.mem_cons_self a t

/-- C9 witness: the fee bound applied to the concrete sessions of
scenarios A and C. -/
theorem claim9_witness :
    0 ≤ (calculateBitMEXPositionSessions scenarioAInput).headI.totalFees ∧
    0 ≤ (calculateBinancePositionSessions scenarioCInput).headI.totalFees :=
  ⟨(claim9_fees_nonneg scenarioAInput).1 _
      (headI_mem_self (by with_unfolding_all exact of_decide_eq_false rfl)),
    (claim9_fees_nonneg scenarioCInput).2 _
      (headI_mem_self (by with_unfolding_all exact of_decide_eq_false rfl))⟩


/-! ### C8: the time-gap branch never emits -/

theorem binancePush_runningPosition (o : BinanceAggregatedOrder)
    (st : BinancePartitionState) :
    (binancePush o st).runningPosition = st.runningPosition := rfl

theorem binancePush_sessionStartTime (o : BinanceAggregatedOrder)
    (st : BinancePartitionState) :
    (binancePush o st).sessionStartTime = st.sessionStartTime := rfl

theorem binanceMaybeStart_runningPosition (o : BinanceAggregatedOrder) (pb : ℚ)
    (st : BinancePartitionState) :
    (binanceMaybeStart o pb st).runningPosition = st.runningPosition := by
  unfold binanceMaybeStart; split <;> rfl

theorem binanceApplyDelta_sessionStartTime (ish : Bool) (o : BinanceAggregatedOrder)
    (st : BinancePartitionState) :
    (binanceApplyDelta ish o st).sessionStartTime = st.sessionStartTime := rfl

/-- When its condition holds, the gap branch's running position is inside
the band, so by `gapInv` no start time is recorded and its `closeSession`
call appends nothing: the branch is the pure reset. -/
theorem binanceMaybeGapClose_eq_reset (symbol posSideStr : String) (ish : Bool)
    (o : BinanceAggregatedOrder) (st : BinancePartitionState) (hinv : gapInv st) :
    binanceMaybeGapClose symbol posSideStr ish o st = binanceMaybeGapReset o st := by
  unfold binanceMaybeGapClose binanceMaybeGapReset
  by_cases hc : BINANCE_SESSION_GAP_MS <
      (if 0 < st.lastOrderTime then o.timestamp - st.lastOrderTime else 0) ∧
      st.sessionOrders ≠ [] ∧ isBinancePositionClosed st.runningPosition
  · rw [if_pos hc, if_pos hc]
    have hstart : st.sessionStartTime = none := hinv hc.2.2
    have hclose : ∀ t : ℤ, binanceCloseSession symbol posSideStr ish st t = st := by
      intro t
      unfold binanceCloseSession
      rw [if_pos (Or.inr hstart)]
    unfold binanceGapClose
    rcases hl : st.sessionOrders.getLast? with _ | lastO
    · rfl
    · simp only [hclose]
  · rw [if_neg hc, if_neg hc]

theorem binanceStep_eq_noGapEmit (symbol posSideStr : String) (ish : Bool)
    (st : BinancePartitionState) (o : BinanceAggregatedOrder) (hinv : gapInv st) :
    binanceStep symbol posSideStr ish st o =
      binanceStepNoGapEmit symbol posSideStr ish st o := by
  unfold binanceStep binanceStepNoGapEmit
  rw [binanceMaybeGapClose_eq_reset symbol posSideStr ish o st hinv]

theorem binanceMaybeGapReset_gapInv (o : BinanceAggregatedOrder)
    (st : BinancePartitionState) (hinv : gapInv st) :
    gapInv (binanceMaybeGapReset o st) := by
  unfold gapInv binanceMaybeGapReset
  by_cases hc : BINANCE_SESSION_GAP_MS <
      (if 0 < st.lastOrderTime then o.timestamp - st.lastOrderTime else 0) ∧
      st.sessionOrders ≠ [] ∧ isBinancePositionClosed st.runningPosition
  · rw [if_pos hc]
    intro _; rfl
  · rw [if_neg hc]
    exact hinv

/-- The per-order step preserves the invariant. -/
theorem gapInv_binanceStep (symbol posSideStr : String) (ish : Bool)
    (st : BinancePartitionState) (o : BinanceAggregatedOrder) (hinv : gapInv st) :
    gapInv (binanceStep symbol posSideStr ish st o) := by
  rw [binanceStep_eq_noGapEmit symbol posSideStr ish st o hinv]
  unfold binanceStepNoGapEmit
  have hg := binanceMaybeGapReset_gapInv o st hinv
  set stg := binanceMaybeGapReset o st with hstg
  unfold gapInv binanceMaybeEnd
  split
  · intro _; rfl
  · rename_i hcond
    intro hcl
    rw [binancePush_runningPosition, binanceMaybeStart_runningPosition] at hcl
    have hpb : isBinancePositionClosed st.runningPosition := by
      by_contra hnpb
      exact hcond ⟨hnpb, by
        rw [binancePush_runningPosition, binanceMaybeStart_runningPosition]
        exact hcl⟩
    rw [binancePush_sessionStartTime]
    unfold binanceMaybeStart
    split
    · rename_i hc
      exact absurd hcl hc.2.1
    · rw [binanceApplyDelta_sessionStartTime]
      revert hg
      unfold gapInv
      intro hg
      apply hg
      rw [hstg]
      unfold binanceMaybeGapReset
      by_cases hc2 : BINANCE_SESSION_GAP_MS <
          (if 0 < st.lastOrderTime then o.timestamp - st.lastOrderTime else 0) ∧
          st.sessionOrders ≠ [] ∧ isBinancePositionClosed st.runningPosition
      · rw [if_pos hc2]
        show isBinancePositionClosed 0
        with_unfolding_all exact of_decide_eq_true rfl
      · rw [if_neg hc2]
        exact hpb

theorem binanceFoldl_eq_noGapEmit (symbol posSideStr : String) (ish : Bool) :
    ∀ (l : List BinanceAggregatedOrder) (st : BinancePartitionState), gapInv st →
      l.foldl (binanceStep symbol posSideStr ish) st =
        l.foldl (binanceStepNoGapEmit symbol posSideStr ish) st := by
  intro l
  induction l with
  | nil => intro st _; rfl
  | cons a l ih =>
    intro st hinv
    simp only [List.foldl_cons]
    rw [← binanceStep_eq_noGapEmit symbol posSideStr ish st a hinv]
    exact ih _ (gapInv_binanceStep symbol posSideStr ish st a hinv)

theorem gapInv_binanceFoldl (symbol posSideStr : String) (ish : Bool) :
    ∀ (l : List BinanceAggregatedOrder) (st : BinancePartitionState), gapInv st →
      gapInv (l.foldl (binanceStep symbol posSideStr ish) st) := by
  intro l
  induction l with
  | nil => intro st h; exact h
  | cons a l ih =>
    intro st hinv
    exact ih _ (gapInv_binanceStep symbol posSideStr ish st a hinv)

/-- C8: the time-gap force-close branch never emits a session: the whole
hedge-mode calculator is unchanged when that branch's `closeSession` call is
removed (only its reset remains), because whenever the branch's condition
holds the position is inside the epsilon band and hence (second conjunct,
an invariant of every reachable partition state) no session start time is
recorded, so the forced finalization returns without appending; sessions
are emitted only by the band-return branch or at the end of a partition. -/
theorem claim8_gap_branch_never_emits :
    (∀ executions : List Execution,
      calculateBinancePositionSessionsNoGapEmit executions =
        calculateBinancePositionSessions executions) ∧
    (∀ (key : String) (orders : List BinanceAggregatedOrder),
      isBinancePositionClosed (binancePartFold key orders).runningPosition →
        (binancePartFold key orders).sessionStartTime = none) := by
  constructor
  · intro execs
    unfold calculateBinancePositionSessionsNoGapEmit calculateBinancePositionSessions
      binanceUnsorted
    have main : ∀ (gs : List (String × List Execution)) (acc : List PositionSession × ℕ),
        gs.foldl (fun acc g => binanceProcessPartitionNoGapEmit acc g.1 g.2) acc =
          gs.foldl (fun acc g => binanceProcessPartition acc g.1 g.2) acc := by
      intro gs
      induction gs with
      | nil => intro acc; rfl
      | cons g gs ih =>
        intro acc
        simp only [List.foldl_cons]
        rw [show binanceProcessPartitionNoGapEmit acc g.1 g.2 =
            binanceProcessPartition acc g.1 g.2 from ?_]
        · exact ih _
        · unfold binanceProcessPartition binanceProcessPartitionNoGapEmit
          dsimp only
          rw [binanceFoldl_eq_noGapEmit _ _ _ _ _ (fun _ => rfl)]
    rw [main]
  · intro key orders
    exact gapInv_binanceFoldl _ _ _ orders {} (fun _ => rfl)

/-- C8 witness: the invariant applied to a concrete partition state. -/
theorem claim8_witness :
    (binancePartFold "W:LONG" []).sessionStartTime = none :=
  claim8_gap_branch_never_emits.2 "W:LONG" []
    (by with_unfolding_all exact of_decide_eq_true rfl)


/-! ### C4: a band exit with no pending orders starts a session that is
eventually emitted -/

theorem binanceGapClose_runningPosition (symbol posSideStr : String) (ish : Bool)
    (st : BinancePartitionState) :
    (binanceGapClose symbol posSideStr ish st).runningPosition = 0 := by
  unfold binanceGapClose; rcases st.sessionOrders.getLast? <;> rfl

theorem binanceGapClose_sessionOrders (symbol posSideStr : String) (ish : Bool)
    (st : BinancePartitionState) :
    (binanceGapClose symbol posSideStr ish st).sessionOrders = [] := by
  unfold binanceGapClose; rcases st.sessionOrders.getLast? <;> rfl

theorem binanceMaybeStart_sessionOrders (o : BinanceAggregatedOrder) (pb : ℚ)
    (st : BinancePartitionState) :
    (binanceMaybeStart o pb st).sessionOrders = st.sessionOrders := by
  unfold binanceMaybeStart; split <;> rfl

theorem binancePush_sessionOrders (o : BinanceAggregatedOrder)
    (st : BinancePartitionState) :
    (binancePush o st).sessionOrders = st.sessionOrders ++ [o] := rfl

/-- If the position is outside the band, the time-gap branch is skipped. -/
theorem binanceMaybeGapClose_skip (symbol posSideStr : String) (ish : Bool)
    (o : BinanceAggregatedOrder) (st : BinancePartitionState)
    (h : ¬ isBinancePositionClosed st.runningPosition) :
    binanceMaybeGapClose symbol posSideStr ish o st = st := by
  unfold binanceMaybeGapClose
  exact if_neg (fun hc => h hc.2.2)

/-- If no orders are pending, the time-gap branch is skipped. -/
theorem binanceMaybeGapClose_skip_empty (symbol posSideStr : String) (ish : Bool)
    (o : BinanceAggregatedOrder) (st : BinancePartitionState)
    (h : st.sessionOrders = []) :
    binanceMaybeGapClose symbol posSideStr ish o st = st := by
  unfold binanceMaybeGapClose
  exact if_neg (fun hc => hc.2.1 h)

/-- The per-order step preserves `posInv`. -/
theorem posInv_binanceStep (symbol posSideStr : String) (ish : Bool)
    (st : BinancePartitionState) (o : BinanceAggregatedOrder)
    (hinv : posInv ish st) :
    posInv ish (binanceStep symbol posSideStr ish st o) := by
  unfold binanceStep
  set stg := binanceMaybeGapClose symbol posSideStr ish o st with hstg
  have hg : posInv ish stg := by
    rw [hstg]
    unfold binanceMaybeGapClose
    by_cases hc : BINANCE_SESSION_GAP_MS <
        (if 0 < st.lastOrderTime then o.timestamp - st.lastOrderTime else 0) ∧
        st.sessionOrders ≠ [] ∧ isBinancePositionClosed st.runningPosition
    · rw [if_pos hc]
      unfold posInv
      rw [binanceGapClose_runningPosition, binanceGapClose_sessionOrders]
      rfl
    · rw [if_neg hc]
      exact hinv
  have h4 : posInv ish (binancePush o
      (binanceMaybeStart o st.runningPosition (binanceApplyDelta ish o stg))) := by
    unfold posInv
    rw [binancePush_runningPosition, binancePush_sessionOrders,
      binanceMaybeStart_runningPosition, binanceMaybeStart_sessionOrders]
    show stg.runningPosition + getPositionDelta ish o
      = ((stg.sessionOrders ++ [o]).map (getPositionDelta ish)).sum
    rw [List.map_append, List.sum_append, hg]
    simp
  unfold binanceMaybeEnd
  split
  · unfold posInv
    rfl
  · exact h4

theorem posInv_binanceFoldl (symbol posSideStr : String) (ish : Bool) :
    ∀ (l : List BinanceAggregatedOrder) (st : BinancePartitionState),
      posInv ish st →
      posInv ish (l.foldl (binanceStep symbol posSideStr ish) st) := by
  intro l
  induction l with
  | nil => intro st h; exact h
  | cons a l ih =>
    intro st hinv
    exact ih _ (posInv_binanceStep symbol posSideStr ish st a hinv)


theorem binanceMkSession_openTime (symbol posSideStr : String) (ish : Bool)
    (st : BinancePartitionState) (et : ℤ) :
    (binanceMkSession symbol posSideStr ish st et).openTime
      = st.sessionStartTime.getD 0 := rfl

/-- Per-order identity behind the session's entry/exit bookkeeping: the
opening-direction quantity minus the closing-direction quantity is the
signed position delta. -/
theorem binance_entry_sub_exit (ish : Bool) :
    ∀ orders : List BinanceAggregatedOrder,
      (orders.map (fun o => if binanceIsOpening ish o then o.totalQty else 0)).sum -
        (orders.map (fun o => if binanceIsOpening ish o then 0 else o.totalQty)).sum
      = (orders.map (getPositionDelta ish)).sum := by
  intro orders
  induction orders with
  | nil => simp
  | cons o rest ih =>
    simp only [List.map_cons, List.sum_cons]
    rw [show ∀ a b c d : ℚ, a + b - (c + d) = (a - c) + (b - d) from by intros; ring]
    rw [ih]
    congr 1
    unfold binanceIsOpening getPositionDelta
    cases ish <;> split_ifs <;> ring

/-- The emitted session is closed iff the sum of its orders' deltas lies in
the epsilon band. -/
theorem binanceMkSession_status (symbol posSideStr : String) (ish : Bool)
    (st : BinancePartitionState) (et : ℤ) :
    (binanceMkSession symbol posSideStr ish st et).status =
      if isBinancePositionClosed ((st.sessionOrders.map (getPositionDelta ish)).sum)
      then "closed" else "open" := by
  show (if isBinancePositionClosed
      ((st.sessionOrders.map (fun o => if binanceIsOpening ish o then o.totalQty else 0)).sum -
       (st.sessionOrders.map (fun o => if binanceIsOpening ish o then 0 else o.totalQty)).sum)
    then "closed" else "open") = _
  rw [binance_entry_sub_exit]

/-- When the position is in the band with no pending orders and this order
moves it out of the band, the step records this order's timestamp as the
session start and seeds the pending list with this order. -/
theorem binanceStep_trigger (symbol posSideStr : String) (ish : Bool)
    (st : BinancePartitionState) (o : BinanceAggregatedOrder)
    (hpend : st.sessionOrders = [])
    (hband : isBinancePositionClosed st.runningPosition)
    (hout : ¬ isBinancePositionClosed (st.runningPosition + getPositionDelta ish o)) :
    binanceStep symbol posSideStr ish st o =
      { st with
        runningPosition := st.runningPosition + getPositionDelta ish o
        sessionOrders := [o]
        sessionStartTime := some o.timestamp
        lastOrderTime := o.timestamp } := by
  unfold binanceStep
  rw [binanceMaybeGapClose_skip_empty symbol posSideStr ish o st hpend]
  unfold binanceApplyDelta binanceMaybeStart
  rw [if_pos ⟨hband, hout, hpend⟩]
  unfold binancePush binanceMaybeEnd
  rw [if_neg (fun hc => hc.1 hband), hpend]
  rfl

theorem mem_allSessions_mono_binanceCloseSession {s : PositionSession}
    {symbol posSideStr : String} {ish : Bool} {st : BinancePartitionState} {et : ℤ}
    (h : s ∈ st.allSessions) :
    s ∈ (binanceCloseSession symbol posSideStr ish st et).allSessions := by
  unfold binanceCloseSession
  split
  · exact h
  · exact List.mem_append_left _ h

theorem mem_allSessions_mono_binanceGapClose {s : PositionSession}
    {symbol posSideStr : String} {ish : Bool} {st : BinancePartitionState}
    (h : s ∈ st.allSessions) :
    s ∈ (binanceGapClose symbol posSideStr ish st).allSessions := by
  unfold binanceGapClose
  rcases hL : st.sessionOrders.getLast? with _ | lastO
  · exact h
  · exact mem_allSessions_mono_binanceCloseSession h

theorem mem_allSessions_mono_binanceMaybeGapClose {s : PositionSession}
    {symbol posSideStr : String} {ish : Bool} {o : BinanceAggregatedOrder}
    {st : BinancePartitionState} (h : s ∈ st.allSessions) :
    s ∈ (binanceMaybeGapClose symbol posSideStr ish o st).allSessions := by
  unfold binanceMaybeGapClose
  by_cases hc : BINANCE_SESSION_GAP_MS <
      (if 0 < st.lastOrderTime then o.timestamp - st.lastOrderTime else 0) ∧
      st.sessionOrders ≠ [] ∧ isBinancePositionClosed st.runningPosition
  · rw [if_pos hc]
    exact mem_allSessions_mono_binanceGapClose h
  · rw [if_neg hc]
    exact h

theorem mem_allSessions_mono_binanceStep {s : PositionSession}
    {symbol posSideStr : String} {ish : Bool} {st : BinancePartitionState}
    {o : BinanceAggregatedOrder} (h : s ∈ st.allSessions) :
    s ∈ (binanceStep symbol posSideStr ish st o).allSessions := by
  unfold binanceStep binanceMaybeEnd
  split
  · apply mem_allSessions_mono_binanceCloseSession
    rw [binancePush_allSessions, binanceMaybeStart_allSessions,
      binanceApplyDelta_allSessions]
    exact mem_allSessions_mono_binanceMaybeGapClose h
  · rw [binancePush_allSessions, binanceMaybeStart_allSessions,
      binanceApplyDelta_allSessions]
    exact mem_allSessions_mono_binanceMaybeGapClose h

theorem mem_allSessions_mono_binanceFoldl {s : PositionSession}
    {symbol posSideStr : String} {ish : Bool} :
    ∀ (l : List BinanceAggregatedOrder) (st : BinancePartitionState),
      s ∈ st.allSessions →
      s ∈ (l.foldl (binanceStep symbol posSideStr ish) st).allSessions := by
  intro l
  induction l with
  | nil => intro st h; exact h
  | cons a l ih =>
    intro st h
    exact ih _ (mem_allSessions_mono_binanceStep h)

theorem mem_allSessions_mono_binanceFinalClose {s : PositionSession}
    {symbol posSideStr : String} {ish : Bool} {st : BinancePartitionState}
    (h : s ∈ st.allSessions) :
    s ∈ (binanceFinalClose symbol posSideStr ish st).allSessions := by
  unfold binanceFinalClose
  split
  · split
    · exact mem_allSessions_mono_binanceCloseSession h
    · exact h
  · exact h

theorem mem_mono_binanceProcessPartition {s : PositionSession}
    {acc : List PositionSession × ℕ} {key : String} {part : List Execution}
    (h : s ∈ acc.1) : s ∈ (binanceProcessPartition acc key part).1 := by
  simp only [binanceProcessPartition]
  exact mem_allSessions_mono_binanceFinalClose (mem_allSessions_mono_binanceFoldl _ _ h)

theorem mem_mono_binanceGroupsFoldl {s : PositionSession} :
    ∀ (gs : List (String × List Execution)) (acc : List PositionSession × ℕ),
      s ∈ acc.1 →
      s ∈ (gs.foldl (fun acc g => binanceProcessPartition acc g.1 g.2) acc).1 := by
  intro gs
  induction gs with
  | nil => intro acc h; exact h
  | cons g gs ih =>
    intro acc h
    exact ih _ (mem_mono_binanceProcessPartition h)


/-- Once a session start is recorded while the position is out of the band,
processing the remaining orders of the partition (and the final close)
emits a session with that open time; it is closed iff some later order
first brings the position back into the band. -/
theorem binanceEmit (symbol posSideStr : String) (ish : Bool) :
    ∀ (rest : List BinanceAggregatedOrder) (st : BinancePartitionState) (T : ℤ),
      st.sessionStartTime = some T →
      st.sessionOrders ≠ [] →
      ¬ isBinancePositionClosed st.runningPosition →
      posInv ish st →
      ∃ s ∈ (binanceFinalClose symbol posSideStr ish
          (rest.foldl (binanceStep symbol posSideStr ish) st)).allSessions,
        s.openTime = T ∧
        s.status =
          (if bandReturn ish st.runningPosition rest then "closed" else "open") := by
  intro rest
  induction rest with
  | nil =>
    intro st T hT hne hnb hinv
    simp only [List.foldl_nil]
    unfold binanceFinalClose
    rw [if_pos hne]
    rcases hL : st.sessionOrders.getLast? with _ | lastO
    · exact absurd (List.getLast?_eq_none_iff.mp hL) hne
    · have hguard : ¬ (st.sessionOrders = [] ∨ st.sessionStartTime = none) := by
        rintro (h1 | h2)
        · exact hne h1
        · rw [hT] at h2; exact Option.noConfusion h2
      refine ⟨binanceMkSession symbol posSideStr ish st lastO.timestamp, ?_, ?_, ?_⟩
      · dsimp only
        unfold binanceCloseSession
        rw [if_neg hguard]
        exact List.mem_append_right _ (List.mem_singleton_self _)
      · rw [binanceMkSession_openTime, hT]; rfl
      · rw [binanceMkSession_status, ← hinv, if_neg hnb]
        rfl
  | cons o rest ih =>
    intro st T hT hne hnb hinv
    simp only [List.foldl_cons]
    have hstep : binanceStep symbol posSideStr ish st o =
        binanceMaybeEnd symbol posSideStr ish o st.runningPosition
          (binancePush o (binanceApplyDelta ish o st)) := by
      unfold binanceStep
      rw [binanceMaybeGapClose_skip symbol posSideStr ish o st hnb]
      rw [show binanceMaybeStart o st.runningPosition (binanceApplyDelta ish o st)
            = binanceApplyDelta ish o st from
          if_neg (fun hc => hnb hc.1)]
    have h4T : (binancePush o (binanceApplyDelta ish o st)).sessionStartTime = some T := hT
    have h4ne : (binancePush o (binanceApplyDelta ish o st)).sessionOrders ≠ [] := by
      rw [binancePush_sessionOrders]
      simp
    have h4pos : (binancePush o (binanceApplyDelta ish o st)).runningPosition
        = st.runningPosition + getPositionDelta ish o := rfl
    have h4inv : posInv ish (binancePush o (binanceApplyDelta ish o st)) := by
      unfold posInv
      rw [h4pos, binancePush_sessionOrders]
      show _ = ((st.sessionOrders ++ [o]).map _).sum
      rw [List.map_append, List.sum_append, ← hinv]
      simp
    by_cases hcl : isBinancePositionClosed (st.runningPosition + getPositionDelta ish o)
    · have hend : binanceStep symbol posSideStr ish st o =
          { binanceResetSession
              (binanceCloseSession symbol posSideStr ish
                (binancePush o (binanceApplyDelta ish o st)) o.timestamp) with
            runningPosition := 0 } := by
        rw [hstep]
        unfold binanceMaybeEnd
        rw [if_pos ⟨hnb, show isBinancePositionClosed
          (binancePush o (binanceApplyDelta ish o st)).runningPosition from
            h4pos ▸ hcl⟩]
      have hguard4 : ¬ ((binancePush o (binanceApplyDelta ish o st)).sessionOrders = [] ∨
          (binancePush o (binanceApplyDelta ish o st)).sessionStartTime = none) := by
        rintro (h1 | h2)
        · exact h4ne h1
        · rw [h4T] at h2; exact Option.noConfusion h2
      refine ⟨binanceMkSession symbol posSideStr ish
          (binancePush o (binanceApplyDelta ish o st)) o.timestamp, ?_, ?_, ?_⟩
      · apply mem_allSessions_mono_binanceFinalClose
        apply mem_allSessions_mono_binanceFoldl
        rw [hend]
        show _ ∈ (binanceCloseSession symbol posSideStr ish
          (binancePush o (binanceApplyDelta ish o st)) o.timestamp).allSessions
        unfold binanceCloseSession
        rw [if_neg hguard4]
        exact List.mem_append_right _ (List.mem_singleton_self _)
      · rw [binanceMkSession_openTime, h4T]; rfl
      · rw [binanceMkSession_status]
        rw [← h4inv, h4pos, if_pos hcl]
        rw [show bandReturn ish st.runningPosition (o :: rest) = true from by
          unfold bandReturn; rw [if_pos hcl]]
        rfl
    · have hstep4 : binanceStep symbol posSideStr ish st o =
          binancePush o (binanceApplyDelta ish o st) := by
        rw [hstep]
        unfold binanceMaybeEnd
        exact if_neg (fun hc => hcl (h4pos ▸ hc.2))
      rw [hstep4]
      have h4nb : ¬ isBinancePositionClosed
          (binancePush o (binanceApplyDelta ish o st)).runningPosition := by
        rw [h4pos]; exact hcl
      obtain ⟨s, hsmem, hsopen, hsstat⟩ :=
        ih (binancePush o (binanceApplyDelta ish o st)) T h4T h4ne h4nb h4inv
      refine ⟨s, hsmem, hsopen, ?_⟩
      rw [hsstat]
      rw [show bandReturn ish st.runningPosition (o :: rest)
            = bandReturn ish (binancePush o (binanceApplyDelta ish o st)).runningPosition
                rest from by
        rw [show bandReturn ish st.runningPosition (o :: rest)
              = if isBinancePositionClosed
                    (st.runningPosition + getPositionDelta ish o) then true
                else bandReturn ish
                  (st.runningPosition + getPositionDelta ish o) rest from rfl]
        rw [if_neg hcl, h4pos]]


/-- C4 (amended): whenever a (symbol, position-side) partition's running
position moves from within the epsilon band to outside it **and no orders
are pending in the accumulating session**, a session with open time equal
to that order's timestamp is eventually emitted by the hedge-mode
calculator — closed if a later order of the partition first brings the
running position back into the band, open if the partition's data ends
first. (Without the no-pending-orders condition the claim fails:
`claim4_counterexample`.) -/
theorem claim4_band_exit_starts_session
    (executions : List Execution) (key : String) (part : List Execution)
    (pre post : List (String × List Execution))
    (done rest : List BinanceAggregatedOrder) (o : BinanceAggregatedOrder)
    (hgroups : binanceGroups executions = pre ++ (key, part) :: post)
    (horders : binanceOrdersOfPartition (posSideOfKey key) part = done ++ o :: rest)
    (hpend : (binanceStateAfter key (binanceAccAfter pre) done).sessionOrders = [])
    (hband : isBinancePositionClosed
      (binanceStateAfter key (binanceAccAfter pre) done).runningPosition)
    (hout : ¬ isBinancePositionClosed
      ((binanceStateAfter key (binanceAccAfter pre) done).runningPosition +
        getPositionDelta (isShortOfKey key) o)) :
    ∃ s ∈ calculateBinancePositionSessions executions,
      s.openTime = o.timestamp ∧
      s.status = (if bandReturn (isShortOfKey key)
          ((binanceStateAfter key (binanceAccAfter pre) done).runningPosition +
            getPositionDelta (isShortOfKey key) o) rest
        then "closed" else "open") := by
  have hstep := binanceStep_trigger (symbolOfKey key) (posSideOfKey key)
    (isShortOfKey key) (binanceStateAfter key (binanceAccAfter pre) done) o hpend hband hout
  have hinvD : posInv (isShortOfKey key)
      (binanceStateAfter key (binanceAccAfter pre) done) := by
    unfold binanceStateAfter
    exact posInv_binanceFoldl _ _ _ done _ rfl
  have hD0 : (binanceStateAfter key (binanceAccAfter pre) done).runningPosition = 0 := by
    rw [hinvD, hpend]
    rfl
  have hinvT : posInv (isShortOfKey key)
      { binanceStateAfter key (binanceAccAfter pre) done with
        runningPosition :=
          (binanceStateAfter key (binanceAccAfter pre) done).runningPosition +
            getPositionDelta (isShortOfKey key) o
        sessionOrders := [o]
        sessionStartTime := some o.timestamp
        lastOrderTime := o.timestamp } := by
    unfold posInv
    show (binanceStateAfter key (binanceAccAfter pre) done).runningPosition +
        getPositionDelta (isShortOfKey key) o = _
    rw [hD0]
    simp
  obtain ⟨s, hsmem, hopen, hstat⟩ :=
    binanceEmit (symbolOfKey key) (posSideOfKey key) (isShortOfKey key) rest
      { binanceStateAfter key (binanceAccAfter pre) done with
        runningPosition :=
          (binanceStateAfter key (binanceAccAfter pre) done).runningPosition +
            getPositionDelta (isShortOfKey key) o
        sessionOrders := [o]
        sessionStartTime := some o.timestamp
        lastOrderTime := o.timestamp }
      o.timestamp rfl (by simp) hout hinvT
  refine ⟨s, ?_, hopen, hstat⟩
  unfold calculateBinancePositionSessions
  rw [List.mem_insertionSort]
  unfold binanceUnsorted
  rw [hgroups, List.foldl_append, List.foldl_cons]
  apply mem_mono_binanceGroupsFoldl
  show s ∈ (binanceProcessPartition (binanceAccAfter pre) key part).1
  simp only [binanceProcessPartition]
  rw [horders, List.foldl_append, List.foldl_cons]
  show s ∈ (binanceFinalClose (symbolOfKey key) (posSideOfKey key) (isShortOfKey key)
    (List.foldl (binanceStep (symbolOfKey key) (posSideOfKey key) (isShortOfKey key))
      (binanceStep (symbolOfKey key) (posSideOfKey key) (isShortOfKey key)
        (binanceStateAfter key (binanceAccAfter pre) done) o) rest)).allSessions
  rw [hstep]
  exact hsmem

/-- C4 witness: a single LONG-tagged buy moves the position out of the band
with no pending orders; the emitted session has that order's timestamp as
its open time and is open (the partition ends immediately). -/
theorem claim4_witness :
    ∃ s ∈ calculateBinancePositionSessions [singleLongExec],
      s.openTime = (buildAggregatedOrder "LONG" "w" [singleLongExec]).timestamp ∧
      s.status = (if bandReturn (isShortOfKey "W:LONG")
          ((binanceStateAfter "W:LONG" (binanceAccAfter []) []).runningPosition +
            getPositionDelta (isShortOfKey "W:LONG")
              (buildAggregatedOrder "LONG" "w" [singleLongExec])) []
        then "closed" else "open") :=
  claim4_band_exit_starts_session [singleLongExec] "W:LONG" [singleLongExec]
    [] [] [] [] (buildAggregatedOrder "LONG" "w" [singleLongExec])
    (by with_unfolding_all rfl)
    (by with_unfolding_all rfl)
    (by with_unfolding_all rfl)
    (by with_unfolding_all exact of_decide_eq_true rfl)
    (by with_unfolding_all exact of_decide_eq_false rfl)


/-! ### C2: occurrence bounds for executions across emitted sessions -/

theorem insertGrouped_countP_sum {α : Type} (p : α → Bool) (k : String) (a : α) :
    ∀ acc : List (String × List α),
      ((insertGrouped k a acc).map (fun g => g.2.countP p)).sum
        = (acc.map (fun g => g.2.countP p)).sum + (if p a then 1 else 0) := by
  intro acc
  induction acc with
  | nil =>
    by_cases hpa : p a
    · simp [insertGrouped, List.countP_cons, hpa]
    · simp [insertGrouped, List.countP_cons, hpa]
  | cons g rest ih =>
    unfold insertGrouped
    split
    · by_cases hpa : p a
      · simp [List.countP_append, List.countP_cons, hpa]
        omega
      · simp [List.countP_append, List.countP_cons, hpa]
    · simp only [List.map_cons, List.sum_cons, ih]
      omega

theorem groupByKey_countP_sum {α : Type} (key : α → String) (p : α → Bool)
    (l : List α) :
    ((groupByKey key l).map (fun g => g.2.countP p)).sum = l.countP p := by
  suffices h : ∀ acc : List (String × List α),
      ((l.foldl (fun acc a => insertGrouped (key a) a acc) acc).map
        (fun g => g.2.countP p)).sum
        = (acc.map (fun g => g.2.countP p)).sum + l.countP p by
    simpa [groupByKey] using h []
  induction l with
  | nil => intro acc; simp
  | cons a l ih =>
    intro acc
    simp only [List.foldl_cons]
    rw [ih (insertGrouped (key a) a acc), insertGrouped_countP_sum, List.countP_cons]
    omega

theorem sessionTradeOccurrences_append (t : Trade) (l1 l2 : List PositionSession) :
    sessionTradeOccurrences t (l1 ++ l2)
      = sessionTradeOccurrences t l1 + sessionTradeOccurrences t l2 := by
  unfold sessionTradeOccurrences
  rw [List.map_append, List.sum_append]

theorem sessionTradeOccurrences_perm {t : Trade} {l1 l2 : List PositionSession}
    (h : l1.Perm l2) :
    sessionTradeOccurrences t l1 = sessionTradeOccurrences t l2 :=
  (h.map _).sum_eq

/-- A session containing `t` contributes at least one occurrence, so the
number of sessions whose trades contain `t` is at most the total number of
occurrences of `t`. -/
theorem countP_mem_trades_le (t : Trade) :
    ∀ l : List PositionSession,
      l.countP (fun s => decide (t ∈ s.trades)) ≤ sessionTradeOccurrences t l := by
  intro l
  induction l with
  | nil => simp [sessionTradeOccurrences]
  | cons s l ih =>
    rw [List.countP_cons]
    unfold sessionTradeOccurrences at ih ⊢
    simp only [List.map_cons, List.sum_cons]
    by_cases hm : t ∈ s.trades
    · have h1 : 0 < s.trades.count t := List.count_pos_iff.mpr hm
      rw [decide_eq_true hm, if_pos rfl]
      omega
    · rw [decide_eq_false hm, if_neg Bool.false_ne_true]
      omega

theorem bitmexMkSession_count (t : Trade) (symbol : String)
    (st : BitmexSymbolState) (et : ℤ) (ep : ℚ) :
    (bitmexMkSession symbol st et ep).trades.count t
      = bitmexExecOcc t st.sessionExecutions := by
  show (st.sessionExecutions.map bitmexToTrade).count t = _
  rw [List.count_eq_countP, List.countP_map]
  rfl

theorem occ_bitmexCloseSession (t : Trade) (symbol : String)
    (st : BitmexSymbolState) (et : ℤ) (ep : ℚ) :
    sessionTradeOccurrences t (bitmexCloseSession symbol st et ep).allSessions
      ≤ sessionTradeOccurrences t st.allSessions
        + bitmexExecOcc t st.sessionExecutions := by
  unfold bitmexCloseSession
  split
  · omega
  · show sessionTradeOccurrences t
      (st.allSessions ++ [bitmexMkSession symbol st et ep]) ≤ _
    rw [sessionTradeOccurrences_append]
    have h1 : sessionTradeOccurrences t [bitmexMkSession symbol st et ep]
        = bitmexExecOcc t st.sessionExecutions := by
      unfold sessionTradeOccurrences
      simp only [List.map_cons, List.map_nil, List.sum_cons, List.sum_nil]
      rw [bitmexMkSession_count]
      omega
    omega

theorem bitmexApplyExec_sessionExecutions (st : BitmexSymbolState) (e : Execution) :
    (bitmexApplyExec st e).sessionExecutions = st.sessionExecutions ++ [e] := by
  simp only [bitmexApplyExec]
  split <;> rfl

theorem occ_measure_bitmexApplyExec (t : Trade) (st : BitmexSymbolState)
    (e : Execution) :
    bitmexOccMeasure t (bitmexApplyExec st e)
      = bitmexOccMeasure t st + (if bitmexToTrade e == t then 1 else 0) := by
  unfold bitmexOccMeasure bitmexExecOcc
  rw [bitmexApplyExec_allSessions, bitmexApplyExec_sessionExecutions,
    List.countP_append, List.countP_cons]
  simp only [List.countP_nil]
  omega

theorem occ_measure_bitmexMaybeStart (t : Trade) (e : Execution) (pb : ℚ)
    (st : BitmexSymbolState) :
    bitmexOccMeasure t (bitmexMaybeStart e pb st) = bitmexOccMeasure t st := by
  unfold bitmexMaybeStart
  split <;> rfl

theorem occ_measure_bitmexResetClose (t : Trade) (symbol : String)
    (st : BitmexSymbolState) (et : ℤ) (ep : ℚ) :
    bitmexOccMeasure t (bitmexResetSession (bitmexCloseSession symbol st et ep))
      ≤ bitmexOccMeasure t st := by
  unfold bitmexOccMeasure
  have h1 : (bitmexResetSession (bitmexCloseSession symbol st et ep)).sessionExecutions
      = [] := rfl
  rw [h1, bitmexResetSession_allSessions]
  have h2 := occ_bitmexCloseSession t symbol st et ep
  unfold bitmexExecOcc
  simp only [List.countP_nil]
  unfold bitmexExecOcc at h2
  omega

theorem occ_measure_bitmexMaybeFlatClose (t : Trade) (symbol : String)
    (e : Execution) (pb : ℚ) (st : BitmexSymbolState) :
    bitmexOccMeasure t (bitmexMaybeFlatClose symbol e pb st)
      ≤ bitmexOccMeasure t st := by
  unfold bitmexMaybeFlatClose
  split
  · exact occ_measure_bitmexResetClose t symbol st e.timestamp 0
  · omega

theorem occ_measure_bitmexFlip (t : Trade) (symbol : String) (e : Execution)
    (st : BitmexSymbolState) :
    bitmexOccMeasure t (bitmexFlip symbol e st)
      ≤ bitmexOccMeasure t st + (if bitmexToTrade e == t then 1 else 0) := by
  unfold bitmexFlip
  set st1 := if e.side = "Buy" then
      { st with
        totalBought := st.totalBought - jsAbs st.runningPosition
        totalBuyCost := st.totalBuyCost - jsAbs st.runningPosition * e.lastPx }
    else
      { st with
        totalSold := st.totalSold - jsAbs st.runningPosition
        totalSellCost := st.totalSellCost - jsAbs st.runningPosition * e.lastPx }
    with hst1
  have hall : st1.allSessions = st.allSessions := by
    rw [hst1]; split <;> rfl
  have hexec : st1.sessionExecutions = st.sessionExecutions := by
    rw [hst1]; split <;> rfl
  show sessionTradeOccurrences t
      (bitmexResetSession (bitmexCloseSession symbol st1 e.timestamp 0)).allSessions
      + bitmexExecOcc t [e] ≤ _
  rw [bitmexResetSession_allSessions]
  have h2 := occ_bitmexCloseSession t symbol st1 e.timestamp 0
  rw [hall, hexec] at h2
  have h3 : bitmexExecOcc t [e] = (if bitmexToTrade e == t then 1 else 0) := by
    unfold bitmexExecOcc
    rw [List.countP_cons]
    simp only [List.countP_nil]
    omega
  unfold bitmexOccMeasure
  omega

theorem occ_measure_bitmexMaybeFlip (t : Trade) (symbol : String) (e : Execution)
    (pb : ℚ) (st : BitmexSymbolState) :
    bitmexOccMeasure t (bitmexMaybeFlip symbol e pb st)
      ≤ bitmexOccMeasure t st + (if bitmexToTrade e == t then 1 else 0) := by
  unfold bitmexMaybeFlip
  split
  · exact occ_measure_bitmexFlip t symbol e st
  · omega

/-- One BitMEX step adds at most two occurrences of any trade value: one
for the pushed execution and one for the flip re-seed. -/
theorem occ_measure_bitmexStep (t : Trade) (symbol : String)
    (st : BitmexSymbolState) (e : Execution) :
    bitmexOccMeasure t (bitmexStep symbol st e)
      ≤ bitmexOccMeasure t st + 2 * (if bitmexToTrade e == t then 1 else 0) := by
  unfold bitmexStep
  have h1 := occ_measure_bitmexApplyExec t st e
  have h2 := occ_measure_bitmexMaybeStart t e st.runningPosition (bitmexApplyExec st e)
  have h3 := occ_measure_bitmexMaybeFlatClose t symbol e st.runningPosition
    (bitmexMaybeStart e st.runningPosition (bitmexApplyExec st e))
  have h4 := occ_measure_bitmexMaybeFlip t symbol e st.runningPosition
    (bitmexMaybeFlatClose symbol e st.runningPosition
      (bitmexMaybeStart e st.runningPosition (bitmexApplyExec st e)))
  omega

theorem occ_measure_bitmexFoldl (t : Trade) (symbol : String) :
    ∀ (l : List Execution) (st : BitmexSymbolState),
      bitmexOccMeasure t (l.foldl (bitmexStep symbol) st)
        ≤ bitmexOccMeasure t st + 2 * bitmexExecOcc t l := by
  intro l
  induction l with
  | nil =>
    intro st
    unfold bitmexExecOcc
    simp only [List.foldl_nil, List.countP_nil]
    omega
  | cons a l ih =>
    intro st
    simp only [List.foldl_cons]
    have h1 := ih (bitmexStep symbol st a)
    have h2 := occ_measure_bitmexStep t symbol st a
    have h3 : bitmexExecOcc t (a :: l)
        = bitmexExecOcc t l + (if bitmexToTrade a == t then 1 else 0) := by
      unfold bitmexExecOcc
      rw [List.countP_cons]
    omega

theorem occ_bitmexFinalClose (t : Trade) (symbol : String) (st : BitmexSymbolState) :
    sessionTradeOccurrences t (bitmexFinalClose symbol st).allSessions
      ≤ bitmexOccMeasure t st := by
  unfold bitmexFinalClose bitmexOccMeasure
  split
  · split
    · have h := occ_bitmexCloseSession t symbol st
      rename_i lastE _
      have h2 := h lastE.timestamp st.runningPosition
      omega
    · omega
  · omega

theorem occ_bitmexProcessSymbol (t : Trade) (acc : List PositionSession × ℕ)
    (symbol : String) (execs : List Execution) :
    sessionTradeOccurrences t (bitmexProcessSymbol acc symbol execs).1
      ≤ sessionTradeOccurrences t acc.1 + 2 * bitmexExecOcc t execs := by
  simp only [bitmexProcessSymbol]
  have h1 := occ_bitmexFinalClose t symbol
    ((List.insertionSort execTsLe execs).foldl (bitmexStep symbol)
      { allSessions := acc.1, globalSessionId := acc.2 })
  have h2 := occ_measure_bitmexFoldl t symbol (List.insertionSort execTsLe execs)
    { allSessions := acc.1, globalSessionId := acc.2 }
  have h3 : bitmexExecOcc t (List.insertionSort execTsLe execs)
      = bitmexExecOcc t execs := (List.perm_insertionSort _ _).countP_eq _
  have h4 : bitmexOccMeasure t
      ({ allSessions := acc.1, globalSessionId := acc.2 } : BitmexSymbolState)
      = sessionTradeOccurrences t acc.1 := by
    unfold bitmexOccMeasure bitmexExecOcc
    simp only [List.countP_nil]
    omega
  omega

theorem occ_bitmexGroupsFoldl (t : Trade) :
    ∀ (gs : List (String × List Execution)) (acc : List PositionSession × ℕ),
      sessionTradeOccurrences t
          ((gs.foldl (fun acc g => bitmexProcessSymbol acc g.1 g.2) acc).1)
        ≤ sessionTradeOccurrences t acc.1
          + 2 * (gs.map (fun g => bitmexExecOcc t g.2)).sum := by
  intro gs
  induction gs with
  | nil => intro acc; simp
  | cons g gs ih =>
    intro acc
    simp only [List.foldl_cons, List.map_cons, List.sum_cons]
    have h1 := ih (bitmexProcessSymbol acc g.1 g.2)
    have h2 := occ_bitmexProcessSymbol t acc g.1 g.2
    omega

/-- Occurrence bound for the inverse calculator: each occurrence of an
execution in the filtered input accounts for at most two occurrences of its
trade record across all emitted sessions. -/
theorem occ_calculateBitMEX (t : Trade) (executions : List Execution) :
    sessionTradeOccurrences t (calculateBitMEXPositionSessions executions)
      ≤ 2 * bitmexExecOcc t (bitmexTradeFilter executions) := by
  unfold calculateBitMEXPositionSessions
  rw [sessionTradeOccurrences_perm (List.perm_insertionSort _ _)]
  unfold bitmexUnsorted
  have h1 := occ_bitmexGroupsFoldl t
    (groupByKey (fun e => e.symbol) (bitmexTradeFilter executions)) ([], 0)
  have h2 : ((groupByKey (fun e => e.symbol) (bitmexTradeFilter executions)).map
      (fun g => bitmexExecOcc t g.2)).sum
      = bitmexExecOcc t (bitmexTradeFilter executions) := by
    unfold bitmexExecOcc
    exact groupByKey_countP_sum _ _ _
  have h3 : sessionTradeOccurrences t
      ((([] : List PositionSession), (0 : ℕ))).1 = 0 := rfl
  omega


theorem binanceMkSession_count (t : Trade) (symbol posSideStr : String) (ish : Bool)
    (st : BinancePartitionState) (et : ℤ) :
    (binanceMkSession symbol posSideStr ish st et).trades.count t
      = binanceOrderOcc t st.sessionOrders := by
  show (List.insertionSort tradeDatetimeLe
      ((st.sessionOrders.map (fun o => o.executions.map binanceToTrade)).flatten)).count t
    = _
  rw [List.count_eq_countP, (List.perm_insertionSort _ _).countP_eq,
    List.countP_flatten, List.map_map]
  unfold binanceOrderOcc binanceExecOcc
  congr 1
  refine List.map_congr_left (fun o _ => ?_)
  show ((o.executions.map binanceToTrade).countP (fun x => x == t)) = _
  rw [List.countP_map]
  rfl

theorem occ_binanceCloseSession (t : Trade) (symbol posSideStr : String)
    (ish : Bool) (st : BinancePartitionState) (et : ℤ) :
    sessionTradeOccurrences t
        (binanceCloseSession symbol posSideStr ish st et).allSessions
      ≤ sessionTradeOccurrences t st.allSessions + binanceOrderOcc t st.sessionOrders := by
  unfold binanceCloseSession
  split
  · omega
  · show sessionTradeOccurrences t
      (st.allSessions ++ [binanceMkSession symbol posSideStr ish st et]) ≤ _
    rw [sessionTradeOccurrences_append]
    have h1 : sessionTradeOccurrences t [binanceMkSession symbol posSideStr ish st et]
        = binanceOrderOcc t st.sessionOrders := by
      unfold sessionTradeOccurrences
      simp only [List.map_cons, List.map_nil, List.sum_cons, List.sum_nil]
      rw [binanceMkSession_count]
      omega
    omega

theorem occ_measure_binanceGapClose (t : Trade) (symbol posSideStr : String)
    (ish : Bool) (st : BinancePartitionState) :
    binanceOccMeasure t (binanceGapClose symbol posSideStr ish st)
      ≤ binanceOccMeasure t st := by
  unfold binanceGapClose
  rcases hL : st.sessionOrders.getLast? with _ | lastO
  · show binanceOccMeasure t ({ binanceResetSession st with runningPosition := 0 }) ≤ _
    unfold binanceOccMeasure binanceOrderOcc
    have ha : ({ binanceResetSession st with runningPosition := 0 }).allSessions
        = st.allSessions := rfl
    have hb : ({ binanceResetSession st with runningPosition := 0 }).sessionOrders
        = [] := rfl
    rw [ha, hb]
    simp only [List.map_nil, List.sum_nil]
    omega
  · show binanceOccMeasure t
      ({ binanceResetSession (binanceCloseSession symbol posSideStr ish st
          lastO.timestamp) with runningPosition := 0 }) ≤ _
    unfold binanceOccMeasure
    have h1 : ({ binanceResetSession (binanceCloseSession symbol posSideStr ish st
        lastO.timestamp) with runningPosition := 0 }).sessionOrders = [] := rfl
    have h2 : ({ binanceResetSession (binanceCloseSession symbol posSideStr ish st
        lastO.timestamp) with runningPosition := 0 }).allSessions
        = (binanceCloseSession symbol posSideStr ish st lastO.timestamp).allSessions :=
      rfl
    rw [h1, h2]
    have h3 := occ_binanceCloseSession t symbol posSideStr ish st lastO.timestamp
    unfold binanceOrderOcc
    simp only [List.map_nil, List.sum_nil]
    unfold binanceOrderOcc at h3
    omega

theorem occ_measure_binanceMaybeGapClose (t : Trade) (symbol posSideStr : String)
    (ish : Bool) (o : BinanceAggregatedOrder) (st : BinancePartitionState) :
    binanceOccMeasure t (binanceMaybeGapClose symbol posSideStr ish o st)
      ≤ binanceOccMeasure t st := by
  unfold binanceMaybeGapClose
  by_cases hc : BINANCE_SESSION_GAP_MS <
      (if 0 < st.lastOrderTime then o.timestamp - st.lastOrderTime else 0) ∧
      st.sessionOrders ≠ [] ∧ isBinancePositionClosed st.runningPosition
  · rw [if_pos hc]
    exact occ_measure_binanceGapClose t symbol posSideStr ish st
  · rw [if_neg hc]

theorem occ_measure_binanceApplyDelta (t : Trade) (ish : Bool)
    (o : BinanceAggregatedOrder) (st : BinancePartitionState) :
    binanceOccMeasure t (binanceApplyDelta ish o st) = binanceOccMeasure t st := rfl

theorem occ_measure_binanceMaybeStart (t : Trade) (o : BinanceAggregatedOrder)
    (pb : ℚ) (st : BinancePartitionState) :
    binanceOccMeasure t (binanceMaybeStart o pb st) = binanceOccMeasure t st := by
  unfold binanceMaybeStart
  split <;> rfl

theorem occ_measure_binancePush (t : Trade) (o : BinanceAggregatedOrder)
    (st : BinancePartitionState) :
    binanceOccMeasure t (binancePush o st)
      = binanceOccMeasure t st + binanceExecOcc t o.executions := by
  unfold binanceOccMeasure
  rw [binancePush_allSessions, binancePush_sessionOrders]
  unfold binanceOrderOcc
  rw [List.map_append, List.sum_append]
  simp only [List.map_cons, List.map_nil, List.sum_cons, List.sum_nil]
  omega

theorem occ_measure_binanceMaybeEnd (t : Trade) (symbol posSideStr : String)
    (ish : Bool) (o : BinanceAggregatedOrder) (pb : ℚ) (st : BinancePartitionState) :
    binanceOccMeasure t (binanceMaybeEnd symbol posSideStr ish o pb st)
      ≤ binanceOccMeasure t st := by
  unfold binanceMaybeEnd
  split
  · show binanceOccMeasure t
      ({ binanceResetSession (binanceCloseSession symbol posSideStr ish st
          o.timestamp) with runningPosition := 0 }) ≤ _
    unfold binanceOccMeasure
    have h1 : ({ binanceResetSession (binanceCloseSession symbol posSideStr ish st
        o.timestamp) with runningPosition := 0 }).sessionOrders = [] := rfl
    have h2 : ({ binanceResetSession (binanceCloseSession symbol posSideStr ish st
        o.timestamp) with runningPosition := 0 }).allSessions
        = (binanceCloseSession symbol posSideStr ish st o.timestamp).allSessions := rfl
    rw [h1, h2]
    have h3 := occ_binanceCloseSession t symbol posSideStr ish st o.timestamp
    unfold binanceOrderOcc
    simp only [List.map_nil, List.sum_nil]
    unfold binanceOrderOcc at h3
    omega
  · omega

/-- One Binance step adds at most the occurrences contained in the pushed
order. -/
theorem occ_measure_binanceStep (t : Trade) (symbol posSideStr : String)
    (ish : Bool) (st : BinancePartitionState) (o : BinanceAggregatedOrder) :
    binanceOccMeasure t (binanceStep symbol posSideStr ish st o)
      ≤ binanceOccMeasure t st + binanceExecOcc t o.executions := by
  unfold binanceStep
  have h1 := occ_measure_binanceMaybeGapClose t symbol posSideStr ish o st
  have h2 := occ_measure_binanceApplyDelta t ish o
    (binanceMaybeGapClose symbol posSideStr ish o st)
  have h3 := occ_measure_binanceMaybeStart t o st.runningPosition
    (binanceApplyDelta ish o (binanceMaybeGapClose symbol posSideStr ish o st))
  have h4 := occ_measure_binancePush t o
    (binanceMaybeStart o st.runningPosition
      (binanceApplyDelta ish o (binanceMaybeGapClose symbol posSideStr ish o st)))
  have h5 := occ_measure_binanceMaybeEnd t symbol posSideStr ish o st.runningPosition
    (binancePush o (binanceMaybeStart o st.runningPosition
      (binanceApplyDelta ish o (binanceMaybeGapClose symbol posSideStr ish o st))))
  omega

theorem occ_measure_binanceFoldl (t : Trade) (symbol posSideStr : String)
    (ish : Bool) :
    ∀ (l : List BinanceAggregatedOrder) (st : BinancePartitionState),
      binanceOccMeasure t (l.foldl (binanceStep symbol posSideStr ish) st)
        ≤ binanceOccMeasure t st + binanceOrderOcc t l := by
  intro l
  induction l with
  | nil =>
    intro st
    unfold binanceOrderOcc
    simp only [List.foldl_nil, List.map_nil, List.sum_nil]
    omega
  | cons a l ih =>
    intro st
    simp only [List.foldl_cons]
    have h1 := ih (binanceStep symbol posSideStr ish st a)
    have h2 := occ_measure_binanceStep t symbol posSideStr ish st a
    have h3 : binanceOrderOcc t (a :: l)
        = binanceExecOcc t a.executions + binanceOrderOcc t l := by
      unfold binanceOrderOcc
      simp only [List.map_cons, List.sum_cons]
    omega

theorem occ_binanceFinalClose (t : Trade) (symbol posSideStr : String) (ish : Bool)
    (st : BinancePartitionState) :
    sessionTradeOccurrences t (binanceFinalClose symbol posSideStr ish st).allSessions
      ≤ binanceOccMeasure t st := by
  unfold binanceFinalClose binanceOccMeasure
  split
  · split
    · rename_i lastO _
      have h := occ_binanceCloseSession t symbol posSideStr ish st lastO.timestamp
      omega
    · omega
  · omega

theorem occ_binanceOrdersOfPartition (t : Trade) (posSideStr : String)
    (part : List Execution) :
    binanceOrderOcc t (binanceOrdersOfPartition posSideStr part)
      ≤ binanceExecOcc t part := by
  unfold binanceOrdersOfPartition
  unfold binanceOrderOcc binanceExecOcc
  rw [((List.perm_insertionSort orderTsLe _).map _).sum_eq]
  rw [List.map_map]
  have h1 : ∀ g ∈ groupByKey (fun e => e.orderID) part,
      ((fun o => o.executions.countP (fun e => binanceToTrade e == t)) ∘
        (fun g : String × List Execution => buildAggregatedOrder posSideStr g.1 g.2)) g
        ≤ g.2.countP (fun e => binanceToTrade e == t) := by
    intro g _
    show (buildAggregatedOrder posSideStr g.1 g.2).executions.countP
      (fun e => binanceToTrade e == t) ≤ _
    rcases hg : g.2 with _ | ⟨f, rest⟩
    · show ([] : List Execution).countP (fun e => binanceToTrade e == t) ≤ _
      simp
    · show (f :: rest).countP (fun e => binanceToTrade e == t) ≤ _
      omega
  have h2 := List.sum_le_sum h1
  have h3 : ((groupByKey (fun e => e.orderID) part).map
      (fun g => g.2.countP (fun e => binanceToTrade e == t))).sum
      = part.countP (fun e => binanceToTrade e == t) :=
    groupByKey_countP_sum _ _ _
  omega

theorem occ_binanceProcessPartition (t : Trade) (acc : List PositionSession × ℕ)
    (key : String) (part : List Execution) :
    sessionTradeOccurrences t (binanceProcessPartition acc key part).1
      ≤ sessionTradeOccurrences t acc.1 + binanceExecOcc t part := by
  simp only [binanceProcessPartition]
  have h1 := occ_binanceFinalClose t (symbolOfKey key) (posSideOfKey key)
    (isShortOfKey key)
    ((binanceOrdersOfPartition (posSideOfKey key) part).foldl
      (binanceStep (symbolOfKey key) (posSideOfKey key) (isShortOfKey key))
      { allSessions := acc.1, globalSessionId := acc.2 })
  have h2 := occ_measure_binanceFoldl t (symbolOfKey key) (posSideOfKey key)
    (isShortOfKey key) (binanceOrdersOfPartition (posSideOfKey key) part)
    { allSessions := acc.1, globalSessionId := acc.2 }
  have h3 := occ_binanceOrdersOfPartition t (posSideOfKey key) part
  have h4 : binanceOccMeasure t
      ({ allSessions := acc.1, globalSessionId := acc.2 } : BinancePartitionState)
      = sessionTradeOccurrences t acc.1 := by
    unfold binanceOccMeasure binanceOrderOcc
    simp only [List.map_nil, List.sum_nil]
    omega
  omega

theorem occ_binanceGroupsFoldl (t : Trade) :
    ∀ (gs : List (String × List Execution)) (acc : List PositionSession × ℕ),
      sessionTradeOccurrences t
          ((gs.foldl (fun acc g => binanceProcessPartition acc g.1 g.2) acc).1)
        ≤ sessionTradeOccurrences t acc.1
          + (gs.map (fun g => binanceExecOcc t g.2)).sum := by
  intro gs
  induction gs with
  | nil => intro acc; simp
  | cons g gs ih =>
    intro acc
    simp only [List.foldl_cons, List.map_cons, List.sum_cons]
    have h1 := ih (binanceProcessPartition acc g.1 g.2)
    have h2 := occ_binanceProcessPartition t acc g.1 g.2
    omega

/-- Occurrence bound for the hedge-mode calculator: each occurrence of an
execution in the filtered input accounts for at most one occurrence of its
trade record across all emitted sessions. -/
theorem occ_calculateBinance (t : Trade) (executions : List Execution) :
    sessionTradeOccurrences t (calculateBinancePositionSessions executions)
      ≤ binanceExecOcc t (binanceTradeFilter executions) := by
  unfold calculateBinancePositionSessions
  rw [sessionTradeOccurrences_perm (List.perm_insertionSort _ _)]
  unfold binanceUnsorted binanceGroups
  have h1 := occ_binanceGroupsFoldl t
    (groupByKey binanceKeyOf (binanceTradeFilter executions)) ([], 0)
  have h2 : ((groupByKey binanceKeyOf (binanceTradeFilter executions)).map
      (fun g => binanceExecOcc t g.2)).sum
      = binanceExecOcc t (binanceTradeFilter executions) := by
    unfold binanceExecOcc
    exact groupByKey_countP_sum _ _ _
  have h3 : sessionTradeOccurrences t
      ((([] : List PositionSession), (0 : ℕ))).1 = 0 := rfl
  omega

/-- C2 (amended): per occurrence in the filtered input, an execution's
trade record appears in at most **two** inverse-calculator sessions — the
bound 2 is attained exactly by a flip-triggering execution, which belongs
to both the session closed at the flip and the new overflow session
(`claim2_counterexample`) — and in at most **one** hedge-mode-calculator
session. -/
theorem claim2_execution_session_multiplicity (executions : List Execution)
    (t : Trade) :
    (calculateBitMEXPositionSessions executions).countP
        (fun s => decide (t ∈ s.trades))
      ≤ 2 * (bitmexTradeFilter executions).countP (fun e => bitmexToTrade e == t) ∧
    (calculateBinancePositionSessions executions).countP
        (fun s => decide (t ∈ s.trades))
      ≤ (binanceTradeFilter executions).countP (fun e => binanceToTrade e == t) := by
  constructor
  · have h1 := countP_mem_trades_le t (calculateBitMEXPositionSessions executions)
    have h2 := occ_calculateBitMEX t executions
    unfold bitmexExecOcc at h2
    omega
  · have h1 := countP_mem_trades_le t (calculateBinancePositionSessions executions)
    have h2 := occ_calculateBinance t executions
    unfold binanceExecOcc at h2
    omega

end PositionCalculator
